import Mathlib

/-!
# subexpnames: tree builder and path query engine

A shallow embedding of `subexpnames.go`.

* A `*MatchValue` is a node of a finite ordered tree; the pointer that `find`
  returns is modelled by the path of child indexes leading from the bound to
  the node, and the assignment `inner.Nested = append(inner.Nested, n)` through
  that pointer by `appendAt`.
* Go `int` values are `Int`; Go slices are lists (`nil` and the empty slice are
  both `[]`); a run-time panic (index out of range) is `none`.
* The regular-expression engine is outside the embedding: `tree` takes what
  `FindAllStringSubmatchIndex`, `SubexpNames` and `FindAllStringSubmatch`
  return as its arguments.
-/

namespace Subexpnames

/-! ## Data model -/

/-- One match: `Key`, `Value`, the nested matches and the unexported span. -/
structure MatchValue where
  Key : String
  Value : String
  Nested : List MatchValue
  start : Int
  end_ : Int

/-- The collection of top-level matches (`type Matches []*MatchValue`). -/
abbrev Matches := List MatchValue

/-! ## Path query engine -/

/-- The recursive descent of `descend(bound, keys...)`: the loop over
`bound.Nested` accumulates `values` from `nil`. -/
def descend : MatchValue → List String → List String
  | bound, [] => [bound.Value]
  | bound, key :: rest =>
    bound.Nested.foldl (fun values mv =>
      if mv.Key = key then
        if (key :: rest).length = 1 then values ++ [mv.Value]
        else values ++ descend mv rest
      else values) []

/-- The number of top-level matches (`Matches.Len`). -/
def Len (rm : Matches) : Int := rm.length

/-- The values under a key sequence in match `group` (`Matches.GetAll`). -/
def GetAll (rm : Matches) (group : Int) (keys : List String) : List String × Bool :=
  if h : group < 0 ∨ group ≥ (rm.length : Int) then ([], false)
  else
    let values := descend (rm.get ⟨group.toNat, by omega⟩) keys
    (values, decide (values.length > 0))

/-- The value at position `value` of `GetAll` (`Matches.Get`). -/
def Get (rm : Matches) (group : Int) (value : Int) (keys : List String) : String × Bool :=
  match GetAll rm group keys with
  | (values, ok) =>
    if !ok then ("", false)
    else if h : value < 0 ∨ value ≥ (values.length : Int) then ("", false)
    else (values.get ⟨value.toNat, by omega⟩, true)

/-- The first value under a key sequence (`Matches.GetFirstValueOfGroup`). -/
def GetFirstValueOfGroup (rm : Matches) (group : Int) (keys : List String) : String × Bool :=
  Get rm group 0 keys

/-- The root of match `group` (`Matches.GetGroup`); `none` is the nil pointer. -/
def GetGroup (rm : Matches) (group : Int) : Option MatchValue × Bool :=
  if h : group < 0 ∨ group ≥ (rm.length : Int) then (none, false)
  else (some (rm.get ⟨group.toNat, by omega⟩), true)

mutual
/-- The traversal of `descendKeys(bound, values, parents...)`: the slice behind
the pointer `values` is threaded through as an argument and returned.
`slices.Compare(v, pk) == 0` holds exactly when `v` and `pk` are equal. -/
def descendKeys : MatchValue → List (List String) → List String → List (List String)
  | ⟨_, _, nested, _, _⟩, values, parents => descendKeysLoop nested values parents
/-- The loop `for _, mv := range bound.Nested` of `descendKeys`. -/
def descendKeysLoop : List MatchValue → List (List String) → List String → List (List String)
  | [], values, _ => values
  | mv :: rest, values, parents =>
    let pk := parents ++ [mv.Key]
    let alreadyExists := values.any (fun v => decide (v = pk))
    let values := if !alreadyExists then values ++ [pk] else values
    descendKeysLoop rest (descendKeys mv values pk) parents
end

/-- The key sequences of match `group` (`Matches.Keys`). -/
def Keys (rm : Matches) (group : Int) : List (List String) :=
  if h : group < 0 ∨ group ≥ (rm.length : Int) then []
  else descendKeys (rm.get ⟨group.toNat, by omega⟩) [] []

/-! ## Tree builder -/

mutual
/-- The search of `find(bound, start, end)`. The result `some p` stands for
`(mv, true)`, where `p` is the path of child indexes from `bound` to `mv`;
`none` stands for `(nil, false)`. -/
def find : MatchValue → Int → Int → Option (List Nat)
  | ⟨_, _, nested, _, _⟩, start, end_ => findLoop nested 0 start end_
/-- The loop `for _, inner := range bound.Nested` of `find`, from child `idx` on. -/
def findLoop : List MatchValue → Nat → Int → Int → Option (List Nat)
  | [], _, _, _ => none
  | inner :: rest, idx, start, end_ =>
    if start ≥ inner.start ∧ end_ ≤ inner.end_ then
      match find inner start end_ with
      | some v => some (idx :: v)
      | none => some [idx]
    else findLoop rest (idx + 1) start end_
end

/-- The node a path points to. -/
def nodeAt : MatchValue → List Nat → Option MatchValue
  | t, [] => some t
  | t, i :: p => match t.Nested[i]? with
    | some c => nodeAt c p
    | none => none

/-- The assignment `inner.Nested = append(inner.Nested, n)` where `inner` is the
node the path points to. -/
def appendAt : MatchValue → List Nat → MatchValue → MatchValue
  | t, [], n => { t with Nested := t.Nested ++ [n] }
  | t, i :: p, n => { t with Nested := t.Nested.modify (fun c => appendAt c p n) i }

/-- The body of the loop `for j := 2; j < len(indexes[i]); j += 2` of `tree`,
where `row = indexes[i]` and `vals = match[i]`. -/
def groupStep (row : List Int) (names : List String) (vals : List String)
    (bound : MatchValue) (j : Nat) : Option MatchValue := do
  let matchStart ← row[j]?
  let matchEnd ← row[j + 1]?
  let key ← names[j / 2]?
  let value ← vals[j / 2]?
  match find bound matchStart matchEnd with
  | some inner => pure (appendAt bound inner ⟨key, value, [], matchStart, matchEnd⟩)
  | none => pure { bound with Nested := bound.Nested ++ [⟨key, value, [], matchStart, matchEnd⟩] }

/-- The body of the loop `for i := 0; i < len(indexes); i++` of `tree`. The
values of `j` in the inner loop are `2, 4, ...` below `len(indexes[i])`, which
are `(len(indexes[i]) - 1) / 2` values. -/
def matchStep (indexes : List (List Int)) (names : List String) (match_ : List (List String))
    (matches_ : List MatchValue) (i : Nat) : Option (List MatchValue) := do
  let row ← indexes[i]?
  let key ← names[i]?
  let vals ← match_[i]?
  let value ← vals[0]?
  let start ← row[0]?
  let end_ ← row[1]?
  let bound ← (List.range' 2 ((row.length - 1) / 2) 2).foldlM (groupStep row names vals)
    ⟨key, value, [], start, end_⟩
  pure (matches_ ++ [bound])

/-- The builder `tree(re, subject)`, given `indexes =
re.FindAllStringSubmatchIndex(subject, -1)`, `names = re.SubexpNames()` and
`match = re.FindAllStringSubmatch(subject, -1)`. -/
def tree (indexes : List (List Int)) (names : List String) (match_ : List (List String)) :
    Option Matches :=
  (List.range indexes.length).foldlM (matchStep indexes names match_) []

/-! ## Reference definitions for the query engine -/

/-- The multi-valued descent written as the specification words it: the
concatenation, over the children carrying the first key in child order, of the
descent along the remaining keys. -/
def descendSpec : MatchValue → List String → List String
  | n, [] => [n.Value]
  | n, k :: ks => (n.Nested.filter (fun c => decide (c.Key = k))).flatMap (fun c => descendSpec c ks)

mutual
/-- The non-root nodes of a tree in depth-first preorder (a node before its
children, children in stored order), each with its key-path: the keys from the
root (exclusive) down to the node (inclusive). -/
def pathNodes : MatchValue → List (List String × MatchValue)
  | ⟨_, _, nested, _, _⟩ => pathNodesList nested
/-- The preorder of `pathNodes` over a list of siblings. -/
def pathNodesList : List MatchValue → List (List String × MatchValue)
  | [] => []
  | c :: rest =>
    ([c.Key], c) :: ((pathNodes c).map (fun pn => (c.Key :: pn.1, pn.2)) ++ pathNodesList rest)
end

/-- The key-paths of the non-root nodes, in depth-first preorder. -/
def keyPaths (t : MatchValue) : List (List String) := (pathNodes t).map (fun pn => pn.1)

/-- Deletes from a list every element that already occurred earlier in it. -/
def keepFirst {α : Type} [DecidableEq α] : List α → List α
  | [] => []
  | x :: xs => x :: (keepFirst xs).filter (fun y => decide (y ≠ x))

/-- The values of the nodes whose key-path is `keys`, in preorder. -/
def valuesAt (t : MatchValue) (keys : List String) : List String :=
  ((pathNodes t).filter (fun pn => decide (pn.1 = keys))).map (fun pn => pn.2.Value)

/-- The accumulation step of `descendKeys` run over a list of paths: a path is
appended unless the accumulated slice already holds it. -/
def addNew {α : Type} [DecidableEq α] (values : List α) (paths : List α) : List α :=
  paths.foldl (fun vs pk => if !(vs.any (fun v => decide (v = pk))) then vs ++ [pk] else vs) values

/-! ## Reference definitions for the builder -/

/-- The effect of one iteration of the inner loop of `tree` on the bound: the new
node is appended to the node `find` returns, or to the bound itself. -/
def insertNode (bound n : MatchValue) : MatchValue :=
  match find bound n.start n.end_ with
  | some inner => appendAt bound inner n
  | none => { bound with Nested := bound.Nested ++ [n] }

/-- The effect of `insertNode` on the children of the bound when `find` reports a
containing child: the first child whose span contains the new span receives the
node. -/
def insertList : List MatchValue → MatchValue → Option (List MatchValue)
  | [], _ => none
  | inner :: rest, n =>
    if n.start ≥ inner.start ∧ n.end_ ≤ inner.end_ then some (insertNode inner n :: rest)
    else (insertList rest n).map (fun l => inner :: l)

/-- A node without its children, as the builder creates it. -/
def leafOf (n : MatchValue) : MatchValue := ⟨n.Key, n.Value, [], n.start, n.end_⟩

/-- The inner loop of `tree` run over a list of new nodes. -/
def build (bound : MatchValue) (nodes : List MatchValue) : MatchValue :=
  nodes.foldl insertNode bound

/-- The non-root nodes of a tree in depth-first preorder. -/
def preorder (t : MatchValue) : List MatchValue := (pathNodes t).map (fun pn => pn.2)

/-- The spans a match record reports for a tree: the root as group 0, the other
nodes as groups `1..G` in depth-first preorder. -/
def indexesOf (t : MatchValue) : List Int :=
  t.start :: t.end_ :: (preorder t).flatMap (fun n => [n.start, n.end_])

/-- The name table for a tree whose nodes are the groups in preorder. -/
def namesOf (t : MatchValue) : List String := t.Key :: (preorder t).map (fun n => n.Key)

/-- The captured substrings for a tree whose nodes are the groups in preorder. -/
def valuesOf (t : MatchValue) : List String := t.Value :: (preorder t).map (fun n => n.Value)

/-- Two half-open spans have no offset in common. -/
def spansDisjoint (a b : MatchValue) : Bool := decide (a.end_ ≤ b.start ∨ b.end_ ≤ a.start)

mutual
/-- Every non-root node has a non-empty span contained in its parent's span, and
the spans of siblings are pairwise disjoint. -/
def wellNested : MatchValue → Bool
  | ⟨_, _, nested, s, e⟩ => wellNestedList nested s e
/-- The condition of `wellNested` on the children of a node with span `s, e`. -/
def wellNestedList : List MatchValue → Int → Int → Bool
  | [], _, _ => true
  | c :: rest, s, e =>
    decide (c.start < c.end_) && decide (s ≤ c.start ∧ c.end_ ≤ e)
      && rest.all (spansDisjoint c) && wellNested c && wellNestedList rest s e
end

mutual
/-- Every non-root node of the tree satisfies `R s e` for the span `s, e` of its parent. -/
def childrenAll (R : Int → Int → MatchValue → Bool) : MatchValue → Bool
  | ⟨_, _, nested, s, e⟩ => childrenAllList R nested s e
/-- The condition of `childrenAll` on the children of a node with span `s, e`. -/
def childrenAllList (R : Int → Int → MatchValue → Bool) : List MatchValue → Int → Int → Bool
  | [], _, _ => true
  | c :: rest, s, e => R s e c && childrenAll R c && childrenAllList R rest s e
end

/-- The span of a node lies within `s, e`. -/
def within (s e : Int) (c : MatchValue) : Bool := decide (s ≤ c.start ∧ c.end_ ≤ e)

/-- The span of a node lies within `s, e`, or is the span `(-1, -1)` of a group
that did not participate. -/
def withinOrAbsent (s e : Int) (c : MatchValue) : Bool :=
  within s e c || decide (c.start = -1 ∧ c.end_ = -1)

/-- The containment invariant: every non-root node's span is contained in its parent's. -/
def containedInParent (t : MatchValue) : Bool := childrenAll within t

/-- The pairs `(start, end)` of a list of offsets. -/
def spanPairs : List Int → List (Int × Int)
  | s :: e :: rest => (s, e) :: spanPairs rest
  | _ => []

/-- The input contract on one match record: every group span is `(-1, -1)` or lies,
well-ordered, within the span of group 0. -/
def rowContract : List Int → Bool
  | rs :: re :: rest =>
    (spanPairs rest).all (fun p =>
      decide ((p.1 = -1 ∧ p.2 = -1) ∨ (rs ≤ p.1 ∧ p.1 ≤ p.2 ∧ p.2 ≤ re)))
  | _ => true

/-- The key, value and span of a node. -/
def record (n : MatchValue) : String × String × Int × Int := (n.Key, n.Value, n.start, n.end_)

/-- The name, captured substring and span that the inputs of `tree` hold for the
group whose span starts at offset `j` of the record `row`. -/
def groupRecord (row : List Int) (names : List String) (vals : List String) (j : Nat) :
    Option (String × String × Int × Int) := do
  let s ← row[j]?
  let e ← row[j + 1]?
  let k ← names[j / 2]?
  let v ← vals[j / 2]?
  pure (k, v, s, e)

/-- The groups `1..G` of a record, in ascending group number. -/
def groupRecords (row : List Int) (names : List String) (vals : List String) :
    List (String × String × Int × Int) :=
  (List.range' 2 ((row.length - 1) / 2) 2).filterMap (groupRecord row names vals)

/-- What `matchStep` establishes for the tree of occurrence `i`. -/
def builtFrom (indexes : List (List Int)) (names : List String) (match_ : List (List String))
    (i : Nat) (t : MatchValue) : Prop :=
  ∃ row key vals value rs re, indexes[i]? = some row ∧ names[i]? = some key
    ∧ match_[i]? = some vals ∧ vals[0]? = some value
    ∧ row[0]? = some rs ∧ row[1]? = some re
    ∧ (List.range' 2 ((row.length - 1) / 2) 2).foldlM (groupStep row names vals)
        ⟨key, value, [], rs, re⟩ = some t

/-- The test `start >= inner.start && end <= inner.end` of `find`. -/
def contains (c : MatchValue) (s e : Int) : Bool := decide (s ≥ c.start ∧ e ≤ c.end_)

/-- Every step of the path enters the first child, in stored order, whose span
contains `s, e`. -/
def chainSteps : MatchValue → List Nat → Int → Int → Bool
  | _, [], _, _ => true
  | t, i :: p, s, e =>
    match t.Nested[i]? with
    | some c =>
      contains c s e && (t.Nested.take i).all (fun d => !contains d s e) && chainSteps c p s e
    | none => false

/-- The path follows first containing children, as in `chainSteps`, and ends at a
node none of whose children contains `s, e`. -/
def firstChain : MatchValue → List Nat → Int → Int → Bool
  | t, [], s, e => t.Nested.all (fun d => !contains d s e)
  | t, i :: p, s, e =>
    match t.Nested[i]? with
    | some c =>
      contains c s e && (t.Nested.take i).all (fun d => !contains d s e) && firstChain c p s e
    | none => false

/-- The path of the node that `insertNode bound n` adds: the path of its parent, the
node `find` returns or the bound itself, followed by the index past the parent's
last child. -/
def insertPath (bound n : MatchValue) : List Nat :=
  (find bound n.start n.end_).getD [] ++
    [match nodeAt bound ((find bound n.start n.end_).getD []) with
      | some x => x.Nested.length
      | none => 0]

/-- The node the inner loop of `tree` creates for a group. -/
def leafOfRecord (r : String × String × Int × Int) : MatchValue :=
  ⟨r.1, r.2.1, [], r.2.2.1, r.2.2.2⟩

/-- The paths at which the inner loop places the nodes of a list, one after the other. -/
def insertPaths : MatchValue → List MatchValue → List (List Nat)
  | _, [] => []
  | bound, n :: ns => insertPath bound n :: insertPaths (insertNode bound n) ns

/-- The input contract on one match record in which every group participates:
every group span lies, well-ordered, within the span of group 0. -/
def rowParticipates : List Int → Bool
  | rs :: re :: rest =>
    (spanPairs rest).all (fun p => decide (rs ≤ p.1 ∧ p.1 ≤ p.2 ∧ p.2 ≤ re))
  | _ => true

/-! ## Examples -/

/-- A tree with a key reused among siblings and across branches, and a child
with an empty span. -/
def exTree : MatchValue :=
  ⟨"", "16-01", [
    ⟨"a", "16", [⟨"d", "1", [], 0, 1⟩, ⟨"d", "6", [], 1, 2⟩], 0, 2⟩,
    ⟨"b", "01", [⟨"d", "0", [], 3, 4⟩, ⟨"d", "1", [], 4, 5⟩], 3, 5⟩,
    ⟨"a", "", [], 5, 5⟩], 0, 5⟩

/-- A tree with non-empty nested spans and disjoint siblings. -/
def exNested : MatchValue :=
  ⟨"", "16-01", [
    ⟨"a", "16", [⟨"d", "1", [], 0, 1⟩, ⟨"d", "6", [], 1, 2⟩], 0, 2⟩,
    ⟨"b", "01", [⟨"d", "0", [], 3, 4⟩, ⟨"d", "1", [], 4, 5⟩], 3, 5⟩], 0, 5⟩

/-- The record of `TestMultipleNestedGroups` on `123abc`, first occurrence:
`outer` and `inner1` match `123`, `inner2` does not participate. -/
def exAltRow : List Int := [0, 3, 0, 3, 0, 3, -1, -1]

/-- The tree the builder returns for `exAltRow`. -/
def exAltTree : MatchValue :=
  ⟨"", "123", [⟨"outer", "123", [⟨"inner1", "123", [], 0, 3⟩], 0, 3⟩, ⟨"inner2", "", [], -1, -1⟩], 0, 3⟩

/-- The name table of `TestMultipleNestedGroups`. -/
def exAltNames : List String := ["", "outer", "inner1", "inner2"]

/-- The two records of `TestMultipleNestedGroups` on `123abc`. -/
def exAltIndexes : List (List Int) := [[0, 3, 0, 3, 0, 3, -1, -1], [3, 6, 3, 6, -1, -1, 3, 6]]

/-- The captured substrings of `TestMultipleNestedGroups` on `123abc`. -/
def exAltMatch : List (List String) := [["123", "123", "123", ""], ["abc", "abc", "", "abc"]]

/-- The second tree the builder returns for `exAltIndexes`. -/
def exAltTree2 : MatchValue :=
  ⟨"outer", "abc", [⟨"outer", "abc", [⟨"inner2", "abc", [], 3, 6⟩], 3, 6⟩,
    ⟨"inner1", "", [], -1, -1⟩], 3, 6⟩

/-- The record of the second `overlap` group of `TestSubExpNamed` on `02`:
`overlap` and `day` have the same span. -/
def exOverlapRow : List Int := [0, 2, 0, 2, 0, 2, 0, 1, 1, 2]

/-- The tree the builder returns for `exOverlapRow`. -/
def exOverlapTree : MatchValue :=
  ⟨"", "02", [⟨"overlap", "02", [⟨"day", "02",
    [⟨"tens", "0", [], 0, 1⟩, ⟨"ones", "2", [], 1, 2⟩], 0, 2⟩], 0, 2⟩], 0, 2⟩

/-- A bound with overlapping siblings `a` and `b`, and `c` under `b`. -/
def exDeepBound : MatchValue :=
  ⟨"", "0123456789", [⟨"a", "0123", [], 0, 4⟩,
    ⟨"b", "012345", [⟨"c", "12345", [], 1, 6⟩], 0, 6⟩], 0, 10⟩

/-- The tree after the group `d` with span `(1, 3)` is added to `exDeepBound`. -/
def exDeepTree : MatchValue :=
  ⟨"", "0123456789", [⟨"a", "0123", [⟨"d", "12", [], 1, 3⟩], 0, 4⟩,
    ⟨"b", "012345", [⟨"c", "12345", [], 1, 6⟩], 0, 6⟩], 0, 10⟩

/-- A record whose groups `a`, `b`, `c`, `d` have spans `(0,4)`, `(0,6)`, `(1,6)`, `(1,3)`. -/
def exDeepRow : List Int := [0, 10, 0, 4, 0, 6, 1, 6, 1, 3]

/-- The name table for `exDeepRow`. -/
def exDeepNames : List String := ["", "a", "b", "c", "d"]

/-- The captured substrings for `exDeepRow`. -/
def exDeepVals : List String := ["0123456789", "0123", "012345", "12345", "12"]

/-- The record of `(a)(((x*)b))` on `ab`: group 1 matches `a`, groups 2 and 3 match
`b`, and group 4 matches the empty string before `b`. -/
def exChainRow : List Int := [0, 2, 0, 1, 1, 2, 1, 2, 1, 1]

/-- The name table of `(a)(((x*)b))`: no group is named. -/
def exChainNames : List String := ["", "", "", "", ""]

/-- The captured substrings of `(a)(((x*)b))` on `ab`. -/
def exChainVals : List String := ["ab", "a", "b", "b", ""]

/-- The bound of the inner loop on `exChainRow` once groups 1 to 3 are inserted:
group 1 and group 2 under the root, group 3 under group 2. -/
def exChainBound : MatchValue :=
  ⟨"", "ab", [⟨"", "a", [], 0, 1⟩, ⟨"", "b", [⟨"", "b", [], 1, 2⟩], 1, 2⟩], 0, 2⟩

/-- The tree the builder returns for `exChainRow`: group 4 is under group 1. -/
def exChainTree : MatchValue :=
  ⟨"", "ab", [⟨"", "a", [⟨"", "", [], 1, 1⟩], 0, 1⟩,
    ⟨"", "b", [⟨"", "b", [], 1, 2⟩], 1, 2⟩], 0, 2⟩

/-! ## Induction principle -/

/-- Induction over a tree: a property holds of every node as soon as it holds of
a node whenever it holds of all its children. -/
theorem MatchValue.induct {P : MatchValue → Prop}
    (step : ∀ k v nested s e, (∀ c ∈ nested, P c) → P ⟨k, v, nested, s, e⟩) :
    ∀ t, P t :=
  @MatchValue.rec P (fun l => ∀ c ∈ l, P c)
    (fun k v nested s e ih => step k v nested s e ih)
    (fun _ h => by cases h)
    (fun hd tl ih1 ih2 c hc => by
      rcases List.mem_cons.mp hc with h | h
      · exact h ▸ ih1
      · exact ih2 c h)

/-! ## Lemmas on the query engine -/

theorem foldl_cond_append {α β : Type} (p : α → Prop) [DecidablePred p] (f : α → List β)
    (l : List α) (init : List β) :
    l.foldl (fun acc a => if p a then acc ++ f a else acc) init
      = init ++ (l.filter (fun a => decide (p a))).flatMap f := by
  induction l generalizing init with
  | nil => simp
  | cons a l ih =>
    by_cases h : p a
    · simp [List.foldl_cons, h, ih, List.filter_cons, List.flatMap_cons, List.append_assoc]
    · simp [List.foldl_cons, h, ih, List.filter_cons]

theorem descend_nil (n : MatchValue) : descend n [] = [n.Value] := by
  simp [descend]

theorem descend_cons (n : MatchValue) (k : String) (ks : List String) :
    descend n (k :: ks)
      = (n.Nested.filter (fun c => decide (c.Key = k))).flatMap (fun c => descend c ks) := by
  cases ks with
  | nil =>
    have h := foldl_cond_append (fun c : MatchValue => c.Key = k) (fun c => [c.Value]) n.Nested []
    simpa [descend, descend_nil] using h
  | cons k2 ks =>
    have h := foldl_cond_append (fun c : MatchValue => c.Key = k)
      (fun c => descend c (k2 :: ks)) n.Nested []
    simpa [descend] using h

theorem GetAll_inrange (rm : Matches) (i : Int) (root : MatchValue) (keys : List String)
    (h0 : 0 ≤ i) (hroot : rm[i.toNat]? = some root) :
    GetAll rm i keys = (descend root keys, decide ((descend root keys).length > 0)) := by
  have hlt : i.toNat < rm.length := by
    by_contra hc
    rw [List.getElem?_eq_none (by omega)] at hroot
    cases hroot
  have hr : rm.get ⟨i.toNat, hlt⟩ = root := by
    rw [List.getElem?_eq_getElem hlt] at hroot
    simpa using hroot
  have hn : ¬ (i < 0 ∨ i ≥ (rm.length : Int)) := by omega
  simp only [GetAll, dif_neg hn, hr]

theorem GetAll_outrange (rm : Matches) (i : Int) (keys : List String)
    (h : i < 0 ∨ i ≥ Len rm) : GetAll rm i keys = ([], false) := by
  have h' : i < 0 ∨ i ≥ (rm.length : Int) := h
  simp only [GetAll, dif_pos h']


theorem pathNodes_eq (t : MatchValue) : pathNodes t = pathNodesList t.Nested := by
  cases t
  simp [pathNodes]

theorem pathNodesList_path_ne_nil (l : List MatchValue) :
    ∀ pn ∈ pathNodesList l, pn.1 ≠ [] := by
  induction l with
  | nil => intro pn h; simp [pathNodesList] at h
  | cons c rest ih =>
    intro pn h
    simp only [pathNodesList, List.mem_cons, List.mem_append, List.mem_map] at h
    rcases h with h | ⟨q, _, hq⟩ | h
    · rw [h]; simp
    · rw [← hq]; simp
    · exact ih pn h

theorem filter_path_nil (t : MatchValue) :
    (pathNodes t).filter (fun pn => decide (pn.1 = [])) = [] := by
  rw [List.filter_eq_nil_iff]
  intro pn h
  rw [pathNodes_eq] at h
  simpa using pathNodesList_path_ne_nil _ pn h

theorem filter_lift_path (c : MatchValue) (k : String) (ks : List String)
    (l : List (List String × MatchValue)) :
    (l.map (fun pn => (c.Key :: pn.1, pn.2))).filter (fun pn => decide (pn.1 = k :: ks))
      = if c.Key = k then (l.filter (fun pn => decide (pn.1 = ks))).map
          (fun pn => (c.Key :: pn.1, pn.2)) else [] := by
  induction l with
  | nil => simp
  | cons a l ih =>
    by_cases hk : c.Key = k
    · rw [if_pos hk] at ih ⊢
      subst hk
      by_cases ha : a.1 = ks
      · simp [List.filter_cons, ha, ih]
      · simp [List.filter_cons, ha, ih]
    · rw [if_neg hk] at ih ⊢
      simp [List.filter_cons, hk, ih]

theorem valuesAt_list (k : String) (ks : List String) (l : List MatchValue) :
    ((pathNodesList l).filter (fun pn => decide (pn.1 = k :: ks))).map (fun pn => pn.2.Value)
      = (l.filter (fun c => decide (c.Key = k))).flatMap
          (fun c => if ks = [] then [c.Value] else valuesAt c ks) := by
  induction l with
  | nil => simp [pathNodesList]
  | cons c rest ih =>
    rw [pathNodesList, List.filter_cons, List.filter_append, filter_lift_path]
    by_cases hk : c.Key = k
    · subst hk
      by_cases hks : ks = []
      · subst hks
        have hd : decide (([c.Key], c).1 = [c.Key]) = true := by simp
        rw [hd, if_pos rfl, if_pos rfl, filter_path_nil c, List.filter_cons]
        simp only [decide_True, if_true, List.map_nil, List.nil_append, List.map_cons,
          List.flatMap_cons, ih, List.singleton_append]
      · have hd : decide (([c.Key], c).1 = c.Key :: ks) = false := by
          simp only [decide_eq_false_iff_not]
          intro h; injection h with _ h2; exact hks h2.symm
        rw [hd, if_pos rfl, List.filter_cons]
        simp only [decide_True, if_true, Bool.false_eq_true, if_false, List.map_append,
          List.map_map, List.flatMap_cons, ih, hks, valuesAt, Function.comp_def]
    · have hd : decide (([c.Key], c).1 = k :: ks) = false := by
        simp only [decide_eq_false_iff_not]
        intro h; injection h with h2 _; exact hk h2
      rw [hd, if_neg hk, List.filter_cons]
      simp only [hk, decide_False, Bool.false_eq_true, if_false, List.nil_append, ih]

theorem descend_eq_valuesAt (keys : List String) (hk : keys ≠ []) :
    ∀ n : MatchValue, descend n keys = valuesAt n keys := by
  induction keys with
  | nil => exact absurd rfl hk
  | cons k ks ih =>
    intro n
    rw [descend_cons, valuesAt, pathNodes_eq, valuesAt_list]
    congr 1
    funext c
    by_cases hks : ks = []
    · simp [hks, descend_nil]
    · simp [hks, ih hks c]

theorem addNew_nil {α : Type} [DecidableEq α] (values : List α) : addNew values [] = values := rfl

theorem addNew_cons {α : Type} [DecidableEq α] (values : List α) (x : α) (xs : List α) :
    addNew values (x :: xs) = addNew (if x ∈ values then values else values ++ [x]) xs := by
  by_cases h : x ∈ values
  · have : (values.any fun v => decide (v = x)) = true := by
      rw [List.any_eq_true]; exact ⟨x, h, by simp⟩
    unfold addNew
    rw [List.foldl_cons, this, if_pos h]
    rfl
  · have : (values.any fun v => decide (v = x)) = false := by
      rw [List.any_eq_false]; intro y hy; simp; intro hyx; exact h (hyx ▸ hy)
    unfold addNew
    rw [List.foldl_cons, this, if_neg h]
    rfl

theorem addNew_append {α : Type} [DecidableEq α] (values xs ys : List α) :
    addNew values (xs ++ ys) = addNew (addNew values xs) ys := by
  simp [addNew, List.foldl_append]

theorem addNew_eq {α : Type} [DecidableEq α] (xs : List α) :
    ∀ values : List α,
      addNew values xs = values ++ (keepFirst xs).filter (fun y => decide (y ∉ values)) := by
  induction xs with
  | nil => intro values; simp [addNew_nil, keepFirst]
  | cons x xs ih =>
    intro values
    rw [addNew_cons, keepFirst]
    by_cases h : x ∈ values
    · rw [if_pos h, ih, List.filter_cons, List.filter_filter]
      simp only [h, not_true_eq_false, decide_False, Bool.false_eq_true, if_false]
      congr 1
      apply List.filter_congr
      intro y _
      by_cases hy : y ∈ values
      · simp [hy]
      · have : y ≠ x := fun hyx => hy (hyx ▸ h)
        simp [hy, this]
    · rw [if_neg h, ih, List.filter_cons, List.filter_filter]
      simp only [h, not_false_eq_true, decide_True, if_true, List.append_assoc,
        List.singleton_append]
      congr 2
      apply List.filter_congr
      intro y _
      by_cases hy : y ∈ values
      · simp [hy]
      · by_cases hyx : y = x
        · simp [hyx]
        · simp [hy, hyx]

theorem addNew_eq_keepFirst {α : Type} [DecidableEq α] (xs : List α) :
    addNew [] xs = keepFirst xs := by
  rw [addNew_eq]
  simp

theorem mem_keepFirst {α : Type} [DecidableEq α] (xs : List α) (y : α) :
    y ∈ keepFirst xs ↔ y ∈ xs := by
  induction xs with
  | nil => simp [keepFirst]
  | cons x xs ih =>
    simp only [keepFirst, List.mem_cons, List.mem_filter, ih]
    by_cases h : y = x
    · simp [h]
    · simp [h]

theorem nodup_keepFirst {α : Type} [DecidableEq α] (xs : List α) : (keepFirst xs).Nodup := by
  induction xs with
  | nil => simp [keepFirst]
  | cons x xs ih =>
    rw [keepFirst, List.nodup_cons]
    exact ⟨by simp [List.mem_filter], ih.filter _⟩

theorem countP_eq_one_of_nodup {α : Type} [DecidableEq α] (l : List α) (a : α)
    (hn : l.Nodup) (ha : a ∈ l) : l.countP (fun q => decide (q = a)) = 1 := by
  induction l with
  | nil => cases ha
  | cons x xs ih =>
    rw [List.nodup_cons] at hn
    by_cases hx : x = a
    · subst hx
      have : xs.countP (fun q => decide (q = x)) = 0 := by
        rw [List.countP_eq_zero]
        intro y hy
        simp only [decide_eq_true_eq]
        intro hyx
        exact hn.1 (hyx ▸ hy)
      simp [List.countP_cons, this]
    · have ha' : a ∈ xs := by
        rcases List.mem_cons.mp ha with h | h
        · exact absurd h.symm hx
        · exact h
      simp [List.countP_cons, hx, ih hn.2 ha']

theorem keyPaths_eq (t : MatchValue) :
    keyPaths t = (pathNodesList t.Nested).map (fun pn => pn.1) := by
  rw [keyPaths, pathNodes_eq]

theorem descendKeysLoop_eq (nested : List MatchValue)
    (ih : ∀ c ∈ nested, ∀ (values : List (List String)) (parents : List String),
      descendKeys c values parents = addNew values ((keyPaths c).map (fun q => parents ++ q))) :
    ∀ (values : List (List String)) (parents : List String),
      descendKeysLoop nested values parents
        = addNew values (((pathNodesList nested).map (fun pn => pn.1)).map
            (fun q => parents ++ q)) := by
  induction nested with
  | nil => intro values parents; simp [descendKeysLoop, pathNodesList, addNew_nil]
  | cons c rest ihr =>
    intro values parents
    have hc := ih c (List.mem_cons_self _ _)
    have hr := ihr (fun d hd => ih d (List.mem_cons_of_mem _ hd))
    rw [descendKeysLoop, hr, hc, pathNodesList]
    simp only [List.map_cons, List.map_append, List.map_map]
    rw [addNew_cons, addNew_append]
    congr 1
    have hany : (!(values.any fun v => decide (v = parents ++ [c.Key])))
        = decide (parents ++ [c.Key] ∉ values) := by
      by_cases h : parents ++ [c.Key] ∈ values
      · have : (values.any fun v => decide (v = parents ++ [c.Key])) = true := by
          rw [List.any_eq_true]; exact ⟨_, h, by simp⟩
        simp [this, h]
      · have : (values.any fun v => decide (v = parents ++ [c.Key])) = false := by
          rw [List.any_eq_false]; intro y hy; simp; intro hyx; exact h (hyx ▸ hy)
        simp [this, h]
    rw [hany]
    by_cases h : parents ++ [c.Key] ∈ values
    · simp [h, keyPaths, Function.comp_def]
    · simp [h, keyPaths, Function.comp_def]

theorem descendKeys_eq : ∀ (t : MatchValue) (values : List (List String)) (parents : List String),
    descendKeys t values parents = addNew values ((keyPaths t).map (fun q => parents ++ q)) := by
  intro t
  induction t using MatchValue.induct with
  | step k v nested s e ih =>
    intro values parents
    rw [descendKeys, descendKeysLoop_eq nested ih, keyPaths_eq]

theorem Keys_inrange (rm : Matches) (i : Int) (root : MatchValue)
    (h0 : 0 ≤ i) (hroot : rm[i.toNat]? = some root) :
    Keys rm i = keepFirst (keyPaths root) := by
  have hlt : i.toNat < rm.length := by
    by_contra hc
    rw [List.getElem?_eq_none (by omega)] at hroot
    cases hroot
  have hr : rm.get ⟨i.toNat, hlt⟩ = root := by
    rw [List.getElem?_eq_getElem hlt] at hroot
    simpa using hroot
  have hn : ¬ (i < 0 ∨ i ≥ (rm.length : Int)) := by omega
  simp only [Keys, dif_neg hn, hr]
  rw [descendKeys_eq, ← addNew_eq_keepFirst]
  simp

/-! ## Lemmas on the builder -/

theorem find_eq (t : MatchValue) (s e : Int) : find t s e = findLoop t.Nested 0 s e := by
  cases t
  simp [find]

theorem modify_append_length {α : Type} (f : α → α) (pre : List α) (x : α) (rest : List α) :
    (pre ++ x :: rest).modify f pre.length = pre ++ f x :: rest := by
  induction pre with
  | nil => simp
  | cons a l ih => simp [ih]

theorem findLoop_insertList (k v : String) (s e : Int) (n : MatchValue)
    (nested : List MatchValue) :
    ∀ pre : List MatchValue,
      match findLoop nested pre.length n.start n.end_ with
      | some p => ∃ l, insertList nested n = some l
          ∧ appendAt ⟨k, v, pre ++ nested, s, e⟩ p n = ⟨k, v, pre ++ l, s, e⟩
      | none => insertList nested n = none := by
  induction nested with
  | nil => intro pre; simp [findLoop, insertList]
  | cons inner rest ih =>
    intro pre
    by_cases hc : n.start ≥ inner.start ∧ n.end_ ≤ inner.end_
    · rw [findLoop, if_pos hc]
      cases hf : find inner n.start n.end_ with
      | none =>
        refine ⟨insertNode inner n :: rest, by rw [insertList, if_pos hc], ?_⟩
        simp [appendAt, modify_append_length, insertNode, hf]
      | some q =>
        refine ⟨insertNode inner n :: rest, by rw [insertList, if_pos hc], ?_⟩
        simp [appendAt, modify_append_length, insertNode, hf]
    · rw [findLoop, if_neg hc]
      have h := ih (pre ++ [inner])
      rw [List.length_append, List.length_singleton] at h
      cases hf : findLoop rest (pre.length + 1) n.start n.end_ with
      | none =>
        rw [hf] at h
        simp [insertList, hc, h]
      | some q =>
        rw [hf] at h
        obtain ⟨l, hl, ha⟩ := h
        refine ⟨inner :: l, by simp [insertList, hc, hl], ?_⟩
        simpa using ha

theorem insertNode_eq (k v : String) (nested : List MatchValue) (s e : Int) (n : MatchValue) :
    insertNode ⟨k, v, nested, s, e⟩ n
      = ⟨k, v, (insertList nested n).getD (nested ++ [n]), s, e⟩ := by
  have h := findLoop_insertList k v s e n nested []
  rw [insertNode, find]
  simp only [List.length_nil, List.nil_append] at h
  cases hf : findLoop nested 0 n.start n.end_ with
  | none =>
    rw [hf] at h
    simp [h]
  | some q =>
    rw [hf] at h
    obtain ⟨l, hl, ha⟩ := h
    simp [hl, ha]

theorem insertNode_span (t n : MatchValue) :
    (insertNode t n).start = t.start ∧ (insertNode t n).end_ = t.end_
      ∧ (insertNode t n).Key = t.Key ∧ (insertNode t n).Value = t.Value := by
  cases t
  rw [insertNode_eq]
  exact ⟨rfl, rfl, rfl, rfl⟩

theorem build_span (nodes : List MatchValue) : ∀ t : MatchValue,
    (build t nodes).start = t.start ∧ (build t nodes).end_ = t.end_ := by
  induction nodes with
  | nil => intro t; exact ⟨rfl, rfl⟩
  | cons n rest ih =>
    intro t
    have h1 := ih (insertNode t n)
    have h2 := insertNode_span t n
    simp only [build, List.foldl_cons] at h1 ⊢
    exact ⟨h1.1.trans h2.1, h1.2.trans h2.2.1⟩

theorem insertList_none (n : MatchValue) (l : List MatchValue)
    (h : ∀ b ∈ l, ¬ (n.start ≥ b.start ∧ n.end_ ≤ b.end_)) : insertList l n = none := by
  induction l with
  | nil => rfl
  | cons b rest ih =>
    rw [insertList, if_neg (h b (List.mem_cons_self _ _)),
      ih (fun c hc => h c (List.mem_cons_of_mem _ hc))]
    rfl

theorem insertList_last (n x : MatchValue) (l : List MatchValue)
    (h : ∀ b ∈ l, ¬ (n.start ≥ b.start ∧ n.end_ ≤ b.end_))
    (hx : n.start ≥ x.start ∧ n.end_ ≤ x.end_) :
    insertList (l ++ [x]) n = some (l ++ [insertNode x n]) := by
  induction l with
  | nil => simp [insertList, hx]
  | cons b rest ih =>
    rw [List.cons_append, insertList, if_neg (h b (List.mem_cons_self _ _)),
      ih (fun c hc => h c (List.mem_cons_of_mem _ hc))]
    rfl

theorem spansDisjoint_iff (a b : MatchValue) :
    spansDisjoint a b = true ↔ (a.end_ ≤ b.start ∨ b.end_ ≤ a.start) := by
  simp [spansDisjoint]

theorem build_cons (t n : MatchValue) (nodes : List MatchValue) :
    build t (n :: nodes) = build (insertNode t n) nodes := rfl

theorem build_append (t : MatchValue) (xs ys : List MatchValue) :
    build t (xs ++ ys) = build (build t xs) ys := by
  simp [build, List.foldl_append]

theorem build_last (k v : String) (s e : Int) (l : List MatchValue) (nodes : List MatchValue) :
    ∀ x : MatchValue,
      (∀ n ∈ nodes, n.start < n.end_ ∧ x.start ≤ n.start ∧ n.end_ ≤ x.end_) →
      (∀ b ∈ l, b.end_ ≤ x.start ∨ x.end_ ≤ b.start) →
      build ⟨k, v, l ++ [x], s, e⟩ nodes = ⟨k, v, l ++ [build x nodes], s, e⟩ := by
  induction nodes with
  | nil => intro x _ _; rfl
  | cons n rest ih =>
    intro x hn hl
    have hn0 := hn n (List.mem_cons_self _ _)
    have hnot : ∀ b ∈ l, ¬ (n.start ≥ b.start ∧ n.end_ ≤ b.end_) := by
      intro b hb hc
      have := hl b hb
      omega
    rw [build_cons, insertNode_eq, insertList_last n x l hnot ⟨hn0.2.1, hn0.2.2⟩, build_cons]
    have hsp := insertNode_span x n
    apply ih (insertNode x n)
    · intro m hm
      have := hn m (List.mem_cons_of_mem _ hm)
      rw [hsp.1, hsp.2.1]
      exact this
    · intro b hb
      rw [hsp.1, hsp.2.1]
      exact hl b hb

theorem preorder_eq (t : MatchValue) :
    preorder t = (pathNodesList t.Nested).map (fun pn => pn.2) := by
  rw [preorder, pathNodes_eq]

theorem preorderList_cons (c : MatchValue) (rest : List MatchValue) :
    (pathNodesList (c :: rest)).map (fun pn => pn.2)
      = c :: (preorder c ++ (pathNodesList rest).map (fun pn => pn.2)) := by
  simp [pathNodesList, preorder, Function.comp_def]

theorem wellNested_eq (t : MatchValue) :
    wellNested t = wellNestedList t.Nested t.start t.end_ := by
  cases t
  simp [wellNested]

theorem wellNestedList_cons (c : MatchValue) (rest : List MatchValue) (s e : Int)
    (h : wellNestedList (c :: rest) s e = true) :
    (c.start < c.end_ ∧ s ≤ c.start ∧ c.end_ ≤ e)
      ∧ (∀ r ∈ rest, c.end_ ≤ r.start ∨ r.end_ ≤ c.start)
      ∧ wellNested c = true ∧ wellNestedList rest s e = true := by
  simp only [wellNestedList, Bool.and_eq_true, decide_eq_true_eq, List.all_eq_true,
    spansDisjoint_iff] at h
  obtain ⟨⟨⟨⟨h1, h2⟩, h3⟩, h4⟩, h5⟩ := h
  exact ⟨⟨h1, h2.1, h2.2⟩, h3, h4, h5⟩

theorem wellNested_preorder_within : ∀ t : MatchValue, wellNested t = true →
    ∀ n ∈ preorder t, n.start < n.end_ ∧ t.start ≤ n.start ∧ n.end_ ≤ t.end_ := by
  intro t
  induction t using MatchValue.induct with
  | step k v nested s e ih =>
    intro hw
    rw [wellNested_eq] at hw
    rw [preorder_eq]
    simp only at hw ⊢
    clear k v
    induction nested with
    | nil => intro n hn; simp [pathNodesList] at hn
    | cons c rest ihr =>
      obtain ⟨hc, _, hwc, hwr⟩ := wellNestedList_cons c rest s e hw
      intro n hn
      rw [preorderList_cons] at hn
      rcases List.mem_cons.mp hn with h | h
      · rw [h]; exact hc
      · rcases List.mem_append.mp h with h | h
        · have := ih c (List.mem_cons_self _ _) hwc n h
          omega
        · exact ihr (fun d hd => ih d (List.mem_cons_of_mem _ hd)) hwr n h

theorem build_children (k v : String) (s e : Int) (nested : List MatchValue)
    (ih : ∀ d ∈ nested, wellNested d = true → build (leafOf d) ((preorder d).map leafOf) = d) :
    ∀ l : List MatchValue, wellNestedList nested s e = true →
      (∀ b ∈ l, ∀ d ∈ nested, b.end_ ≤ d.start ∨ d.end_ ≤ b.start) →
      build ⟨k, v, l, s, e⟩ (((pathNodesList nested).map (fun pn => pn.2)).map leafOf)
        = ⟨k, v, l ++ nested, s, e⟩ := by
  induction nested with
  | nil => intro l _ _; simp [pathNodesList, build]
  | cons d rest ihr =>
    intro l hw hl
    obtain ⟨hd, hdis, hwd, hwr⟩ := wellNestedList_cons d rest s e hw
    have hnot : ∀ b ∈ l, ¬ ((leafOf d).start ≥ b.start ∧ (leafOf d).end_ ≤ b.end_) := by
      intro b hb hc
      have h1 := hl b hb d (List.mem_cons_self _ _)
      have h2 : (leafOf d).start = d.start := rfl
      have h3 : (leafOf d).end_ = d.end_ := rfl
      omega
    have hin : ∀ n ∈ (preorder d).map leafOf,
        n.start < n.end_ ∧ (leafOf d).start ≤ n.start ∧ n.end_ ≤ (leafOf d).end_ := by
      intro n hn
      obtain ⟨m, hm, rfl⟩ := List.mem_map.mp hn
      exact wellNested_preorder_within d hwd m hm
    have hl' : ∀ b ∈ l, b.end_ ≤ (leafOf d).start ∨ (leafOf d).end_ ≤ b.start :=
      fun b hb => hl b hb d (List.mem_cons_self _ _)
    rw [preorderList_cons, List.map_cons, List.map_append, build_cons, build_append,
      insertNode_eq, insertList_none _ l hnot, Option.getD_none,
      build_last k v s e l _ (leafOf d) hin hl', ih d (List.mem_cons_self _ _) hwd,
      ihr (fun c hc => ih c (List.mem_cons_of_mem _ hc)) (l ++ [d]) hwr]
    · simp
    · intro b hb c hc
      rcases List.mem_append.mp hb with h | h
      · exact hl b h c (List.mem_cons_of_mem _ hc)
      · rw [List.mem_singleton.mp h]
        exact hdis c hc

theorem build_roundtrip : ∀ t : MatchValue, wellNested t = true →
    build (leafOf t) ((preorder t).map leafOf) = t := by
  intro t
  induction t using MatchValue.induct with
  | step k v nested s e ih =>
    intro hw
    rw [wellNested_eq] at hw
    rw [preorder_eq]
    have h := build_children k v s e nested ih [] hw (fun b hb => by cases hb)
    simpa [leafOf] using h

theorem spans_getElem (pre : List MatchValue) (n : MatchValue) (rest : List MatchValue) :
    ((pre ++ n :: rest).flatMap (fun m => [m.start, m.end_]))[2 * pre.length]? = some n.start
      ∧ ((pre ++ n :: rest).flatMap (fun m => [m.start, m.end_]))[2 * pre.length + 1]?
          = some n.end_ := by
  induction pre with
  | nil => simp [List.flatMap_cons]
  | cons a l ih =>
    have h1 : 2 * (a :: l).length = 2 * l.length + 1 + 1 := by simp [List.length_cons]; ring
    rw [h1]
    simpa [List.flatMap_cons] using ih

theorem map_getElem {β : Type} (f : MatchValue → β) (pre : List MatchValue) (n : MatchValue)
    (rest : List MatchValue) : ((pre ++ n :: rest).map f)[pre.length]? = some (f n) := by
  rw [List.map_append, List.map_cons, List.getElem?_append_right (by simp)]
  simp

theorem groupStep_encoded (a b : Int) (k0 v0 : String) (pre : List MatchValue)
    (n : MatchValue) (rest : List MatchValue) (bound : MatchValue) :
    groupStep (a :: b :: (pre ++ n :: rest).flatMap (fun m => [m.start, m.end_]))
        (k0 :: (pre ++ n :: rest).map (fun m => m.Key))
        (v0 :: (pre ++ n :: rest).map (fun m => m.Value)) bound (2 * pre.length + 2)
      = some (insertNode bound (leafOf n)) := by
  have hs := spans_getElem pre n rest
  have hj : (2 * pre.length + 2) / 2 = pre.length + 1 := by omega
  have hk := map_getElem (fun m => m.Key) pre n rest
  have hv := map_getElem (fun m => m.Value) pre n rest
  unfold groupStep
  rw [hj]
  simp only [List.getElem?_cons_succ, hs.1, hs.2, hk, hv, Option.bind_eq_bind,
    Option.some_bind, insertNode, leafOf]
  cases find bound n.start n.end_ <;> rfl

theorem groupLoop_encoded (a b : Int) (k0 v0 : String) (nodes : List MatchValue) :
    ∀ (pre : List MatchValue) (bound : MatchValue),
      (List.range' (2 * pre.length + 2) nodes.length 2).foldlM
          (groupStep (a :: b :: (pre ++ nodes).flatMap (fun m => [m.start, m.end_]))
            (k0 :: (pre ++ nodes).map (fun m => m.Key))
            (v0 :: (pre ++ nodes).map (fun m => m.Value))) bound
        = some (build bound (nodes.map leafOf)) := by
  induction nodes with
  | nil => intro pre bound; rfl
  | cons n rest ih =>
    intro pre bound
    have h := ih (pre ++ [n]) (insertNode bound (leafOf n))
    rw [List.length_append, List.length_singleton, List.append_assoc, List.singleton_append] at h
    have hstep : 2 * (pre.length + 1) + 2 = 2 * pre.length + 2 + 2 := by ring
    rw [hstep] at h
    rw [List.length_cons, List.range'_succ, List.foldlM_cons, groupStep_encoded]
    simpa [build_cons] using h

theorem childrenAll_eq (R : Int → Int → MatchValue → Bool) (t : MatchValue) :
    childrenAll R t = childrenAllList R t.Nested t.start t.end_ := by
  cases t
  simp [childrenAll]

theorem childrenAllList_append (R : Int → Int → MatchValue → Bool) (s e : Int)
    (l₁ l₂ : List MatchValue) :
    childrenAllList R (l₁ ++ l₂) s e
      = (childrenAllList R l₁ s e && childrenAllList R l₂ s e) := by
  induction l₁ with
  | nil => simp [childrenAllList]
  | cons a l ih => simp [childrenAllList, ih, Bool.and_assoc]

theorem childrenAllList_insertList (R : Int → Int → MatchValue → Bool)
    (hspan : ∀ s e a b, a.start = b.start → a.end_ = b.end_ → R s e a = R s e b)
    (hin : ∀ c n : MatchValue, n.start ≥ c.start ∧ n.end_ ≤ c.end_ → R c.start c.end_ n = true)
    (n : MatchValue) (s e : Int) (nested : List MatchValue)
    (ih : ∀ c ∈ nested, childrenAll R c = true → R c.start c.end_ n = true →
      childrenAll R (insertNode c n) = true) :
    ∀ l, insertList nested n = some l → childrenAllList R nested s e = true →
      childrenAllList R l s e = true := by
  induction nested with
  | nil => intro l h; simp [insertList] at h
  | cons c rest ihr =>
    intro l h hall
    simp only [childrenAllList, Bool.and_eq_true] at hall
    obtain ⟨⟨h1, h2⟩, h3⟩ := hall
    by_cases hc : n.start ≥ c.start ∧ n.end_ ≤ c.end_
    · rw [insertList, if_pos hc] at h
      injection h with h
      subst h
      have hsp := insertNode_span c n
      simp only [childrenAllList, Bool.and_eq_true]
      refine ⟨⟨?_, ih c (List.mem_cons_self _ _) h2 (hin c n hc)⟩, h3⟩
      rw [hspan s e (insertNode c n) c hsp.1 hsp.2.1]
      exact h1
    · rw [insertList, if_neg hc] at h
      cases hr : insertList rest n with
      | none => rw [hr] at h; cases h
      | some l' =>
        rw [hr] at h
        injection h with h
        subst h
        simp only [childrenAllList, Bool.and_eq_true]
        exact ⟨⟨h1, h2⟩, ihr (fun d hd => ih d (List.mem_cons_of_mem _ hd)) l' hr h3⟩

theorem childrenAll_insertNode (R : Int → Int → MatchValue → Bool)
    (hspan : ∀ s e a b, a.start = b.start → a.end_ = b.end_ → R s e a = R s e b)
    (hin : ∀ c n : MatchValue, n.start ≥ c.start ∧ n.end_ ≤ c.end_ → R c.start c.end_ n = true)
    (n : MatchValue) (hleaf : n.Nested = []) :
    ∀ t : MatchValue, childrenAll R t = true → R t.start t.end_ n = true →
      childrenAll R (insertNode t n) = true := by
  intro t
  induction t using MatchValue.induct with
  | step k v nested s e ih =>
    intro hall hR
    rw [insertNode_eq, childrenAll_eq]
    rw [childrenAll_eq] at hall
    simp only at hall hR ⊢
    cases hl : insertList nested n with
    | none =>
      have hn : childrenAll R n = true := by
        rw [childrenAll_eq, hleaf]; rfl
      simp [childrenAllList_append, childrenAllList, hall, hR, hn]
    | some l =>
      exact childrenAllList_insertList R hspan hin n s e nested ih l hl hall

theorem foldlM_invariant {α β : Type} (f : β → α → Option β) (Inv : β → Prop) (l : List α)
    (hstep : ∀ b x b', x ∈ l → Inv b → f b x = some b' → Inv b') :
    ∀ b r, Inv b → l.foldlM f b = some r → Inv r := by
  induction l with
  | nil =>
    intro b r hb h
    simp only [List.foldlM_nil] at h
    injection h with h
    exact h ▸ hb
  | cons x xs ih =>
    intro b r hb h
    rw [List.foldlM_cons] at h
    cases hx : f b x with
    | none => rw [hx] at h; cases h
    | some b' =>
      rw [hx] at h
      exact ih (fun c y c' hy => hstep c y c' (List.mem_cons_of_mem _ hy)) b' r
        (hstep b x b' (List.mem_cons_self _ _) hb hx) h

theorem spanPairs_mem (i : Nat) : ∀ (l : List Int) (s e : Int),
    l[2 * i]? = some s → l[2 * i + 1]? = some e → (s, e) ∈ spanPairs l := by
  induction i with
  | zero =>
    intro l s e hs he
    match l, hs, he with
    | a :: b :: rest, hs, he =>
      simp at hs he
      simp [spanPairs, hs, he]
    | [a], _, he => simp at he
    | [], hs, _ => simp at hs
  | succ i ih =>
    intro l s e hs he
    have h1 : 2 * (i + 1) = 2 * i + 1 + 1 := by ring
    rw [h1] at hs he
    match l, hs, he with
    | a :: b :: rest, hs, he =>
      simp only [List.getElem?_cons_succ] at hs he
      simp only [spanPairs, List.mem_cons]
      exact Or.inr (ih rest s e hs he)
    | [a], hs, _ => simp at hs
    | [], hs, _ => simp at hs

theorem rowContract_span (row : List Int) (hc : rowContract row = true) (rs re : Int)
    (h0 : row[0]? = some rs) (h1 : row[1]? = some re) (i : Nat) (s e : Int)
    (hs : row[2 + 2 * i]? = some s) (he : row[2 + 2 * i + 1]? = some e) :
    (s = -1 ∧ e = -1) ∨ (rs ≤ s ∧ s ≤ e ∧ e ≤ re) := by
  match row, hc, h0, h1, hs, he with
  | a :: b :: rest, hc, h0, h1, hs, he =>
    simp only [List.getElem?_cons_zero, List.getElem?_cons_succ, Option.some.injEq] at h0 h1
    subst h0 h1
    have e1 : 2 + 2 * i = 2 * i + 1 + 1 := by ring
    have e2 : 2 + 2 * i + 1 = 2 * i + 1 + 1 + 1 := by ring
    rw [e1] at hs
    rw [e2] at he
    simp only [List.getElem?_cons_succ] at hs he
    have hm := spanPairs_mem i rest s e hs he
    simp only [rowContract, List.all_eq_true, decide_eq_true_eq] at hc
    exact hc (s, e) hm
  | [a], _, _, h1, _, _ => simp at h1
  | [], _, h0, _, _, _ => simp at h0

theorem groupStep_some (row : List Int) (names vals : List String) (bound b' : MatchValue)
    (j : Nat) (h : groupStep row names vals bound j = some b') :
    ∃ s e key value, row[j]? = some s ∧ row[j + 1]? = some e
      ∧ b' = insertNode bound ⟨key, value, [], s, e⟩ := by
  unfold groupStep at h
  cases hs : row[j]? with
  | none => simp [hs] at h
  | some s =>
    cases he : row[j + 1]? with
    | none => simp [hs, he] at h
    | some e =>
      cases hk : names[j / 2]? with
      | none => simp [hs, he, hk] at h
      | some key =>
        cases hv : vals[j / 2]? with
        | none => simp [hs, he, hk, hv] at h
        | some value =>
          refine ⟨s, e, key, value, rfl, rfl, ?_⟩
          simp only [hs, he, hk, hv, Option.bind_eq_bind, Option.some_bind] at h
          unfold insertNode
          cases hf : find bound s e with
          | none => simp [hf] at h ⊢; exact h.symm
          | some q => simp [hf] at h ⊢; exact h.symm

theorem groupLoop_invariant (R : Int → Int → MatchValue → Bool)
    (hspan : ∀ s e a b, a.start = b.start → a.end_ = b.end_ → R s e a = R s e b)
    (hin : ∀ c n : MatchValue, n.start ≥ c.start ∧ n.end_ ≤ c.end_ → R c.start c.end_ n = true)
    (row : List Int) (names vals : List String) (rs re : Int) (cnt : Nat)
    (hR : ∀ i s e, row[2 + 2 * i]? = some s → row[2 + 2 * i + 1]? = some e →
      ∀ k v, R rs re ⟨k, v, [], s, e⟩ = true)
    (bound r : MatchValue)
    (hb : childrenAll R bound = true ∧ bound.start = rs ∧ bound.end_ = re)
    (h : (List.range' 2 cnt 2).foldlM (groupStep row names vals) bound = some r) :
    childrenAll R r = true ∧ r.start = rs ∧ r.end_ = re := by
  refine foldlM_invariant (groupStep row names vals)
    (fun b => childrenAll R b = true ∧ b.start = rs ∧ b.end_ = re) _ ?_ bound r hb h
  intro b j b' hj hinv hstep
  obtain ⟨i, _, rfl⟩ := List.mem_range'.mp hj
  obtain ⟨s, e, key, value, hs, he, rfl⟩ := groupStep_some row names vals b b' _ hstep
  have hsp := insertNode_span b ⟨key, value, [], s, e⟩
  refine ⟨?_, hsp.1.trans hinv.2.1, hsp.2.1.trans hinv.2.2⟩
  apply childrenAll_insertNode R hspan hin _ rfl b hinv.1
  rw [hinv.2.1, hinv.2.2]
  exact hR i s e hs he key value

theorem matchStep_some (indexes : List (List Int)) (names : List String)
    (match_ : List (List String)) (acc acc' : List MatchValue) (i : Nat)
    (h : matchStep indexes names match_ acc i = some acc') :
    ∃ row key vals value rs re bound, indexes[i]? = some row ∧ names[i]? = some key
      ∧ match_[i]? = some vals ∧ vals[0]? = some value
      ∧ row[0]? = some rs ∧ row[1]? = some re
      ∧ (List.range' 2 ((row.length - 1) / 2) 2).foldlM (groupStep row names vals)
          ⟨key, value, [], rs, re⟩ = some bound
      ∧ acc' = acc ++ [bound] := by
  unfold matchStep at h
  cases hrow : indexes[i]? with
  | none => simp [hrow] at h
  | some row =>
    cases hkey : names[i]? with
    | none => simp [hrow, hkey] at h
    | some key =>
      cases hvals : match_[i]? with
      | none => simp [hrow, hkey, hvals] at h
      | some vals =>
        cases hvalue : vals[0]? with
        | none => simp [hrow, hkey, hvals, hvalue] at h
        | some value =>
          cases hrs : row[0]? with
          | none => simp [hrow, hkey, hvals, hvalue, hrs] at h
          | some rs =>
            cases hre : row[1]? with
            | none => simp [hrow, hkey, hvals, hvalue, hrs, hre] at h
            | some re =>
              simp only [hrow, hkey, hvals, hvalue, hrs, hre, Option.bind_eq_bind,
                Option.some_bind] at h
              cases hb : (List.range' 2 ((row.length - 1) / 2) 2).foldlM
                  (groupStep row names vals) ⟨key, value, [], rs, re⟩ with
              | none => simp [hb] at h
              | some bound =>
                refine ⟨row, key, vals, value, rs, re, bound, rfl, rfl, rfl, hvalue, hrs, hre,
                  hb, ?_⟩
                simp [hb] at h
                exact h.symm

theorem tree_invariant (R : Int → Int → MatchValue → Bool)
    (hspan : ∀ s e a b, a.start = b.start → a.end_ = b.end_ → R s e a = R s e b)
    (hin : ∀ c n : MatchValue, n.start ≥ c.start ∧ n.end_ ≤ c.end_ → R c.start c.end_ n = true)
    (indexes : List (List Int)) (names : List String) (match_ : List (List String))
    (hR : ∀ row ∈ indexes, ∀ rs re, row[0]? = some rs → row[1]? = some re →
      ∀ i s e, row[2 + 2 * i]? = some s → row[2 + 2 * i + 1]? = some e →
        ∀ k v, R rs re ⟨k, v, [], s, e⟩ = true)
    (forest : Matches) (h : tree indexes names match_ = some forest) :
    ∀ t ∈ forest, childrenAll R t = true := by
  refine foldlM_invariant (matchStep indexes names match_)
    (fun acc => ∀ t ∈ acc, childrenAll R t = true) _ ?_ [] forest
    (fun t ht => by cases ht) h
  intro acc i acc' _ hacc hstep
  obtain ⟨row, key, vals, value, rs, re, bound, hrow, _, _, _, hrs, hre, hb, rfl⟩ :=
    matchStep_some indexes names match_ acc acc' i hstep
  intro t ht
  rcases List.mem_append.mp ht with ht | ht
  · exact hacc t ht
  · rw [List.mem_singleton.mp ht]
    have hmem : row ∈ indexes := List.getElem?_mem hrow
    exact (groupLoop_invariant R hspan hin row names vals rs re _
      (hR row hmem rs re hrs hre) ⟨key, value, [], rs, re⟩ bound ⟨rfl, rfl, rfl⟩ hb).1

theorem foldlM_range_succ {β : Type} (f : β → Nat → Option β) (b : β) (n : Nat) :
    (List.range (n + 1)).foldlM f b = ((List.range n).foldlM f b).bind (fun acc => f acc n) := by
  rw [List.range_succ, List.foldlM_append]
  cases (List.range n).foldlM f b with
  | none => rfl
  | some acc =>
    simp only [Option.bind_eq_bind, Option.some_bind, List.foldlM_cons, List.foldlM_nil,
      Option.pure_def, Option.bind_some]

theorem tree_prefix (indexes : List (List Int)) (names : List String)
    (match_ : List (List String)) :
    ∀ (n : Nat) (acc : List MatchValue),
      (List.range n).foldlM (matchStep indexes names match_) [] = some acc →
      acc.length = n ∧ ∀ i t, acc[i]? = some t → builtFrom indexes names match_ i t := by
  intro n
  induction n with
  | zero =>
    intro acc h
    simp only [List.range_zero, List.foldlM_nil, Option.pure_def, Option.some.injEq] at h
    subst h
    exact ⟨rfl, fun i t hi => by simp at hi⟩
  | succ n ih =>
    intro acc h
    rw [foldlM_range_succ] at h
    cases hp : (List.range n).foldlM (matchStep indexes names match_) [] with
    | none => rw [hp] at h; cases h
    | some acc0 =>
      rw [hp] at h
      simp only [Option.some_bind] at h
      obtain ⟨hlen, hall⟩ := ih acc0 hp
      obtain ⟨row, key, vals, value, rs, re, bound, h1, h2, h3, h4, h5, h6, h7, rfl⟩ :=
        matchStep_some indexes names match_ acc0 acc n h
      refine ⟨by simp [hlen], ?_⟩
      intro i t hi
      by_cases hlt : i < acc0.length
      · rw [List.getElem?_append_left hlt] at hi
        exact hall i t hi
      · rw [List.getElem?_append_right (by omega)] at hi
        have hi0 : i = n := by
          by_contra hne
          have : i - acc0.length = (i - acc0.length - 1) + 1 := by omega
          rw [this] at hi
          simp at hi
        subst hi0
        rw [hlen, Nat.sub_self] at hi
        simp only [List.getElem?_cons_zero, Option.some.injEq] at hi
        subst hi
        exact ⟨row, key, vals, value, rs, re, h1, h2, h3, h4, h5, h6, h7⟩

theorem tree_getElem (indexes : List (List Int)) (names : List String)
    (match_ : List (List String)) (forest : Matches)
    (h : tree indexes names match_ = some forest) :
    forest.length = indexes.length
      ∧ ∀ i t, forest[i]? = some t → builtFrom indexes names match_ i t :=
  tree_prefix indexes names match_ indexes.length forest h

theorem preorder_leaf (n : MatchValue) (h : n.Nested = []) : preorder n = [] := by
  rw [preorder_eq, h]
  rfl

theorem record_insertNode (t n : MatchValue) : record (insertNode t n) = record t := by
  have h := insertNode_span t n
  simp only [record, h.1, h.2.1, h.2.2.1, h.2.2.2]

theorem pathNodesList_append (l₁ l₂ : List MatchValue) :
    pathNodesList (l₁ ++ l₂) = pathNodesList l₁ ++ pathNodesList l₂ := by
  induction l₁ with
  | nil => rfl
  | cons c rest ih => simp [pathNodesList, ih]

theorem records_insertList (n : MatchValue) (nested : List MatchValue)
    (ih : ∀ c ∈ nested, ((preorder (insertNode c n)).map record).Perm
      (record n :: (preorder c).map record)) :
    ∀ l, insertList nested n = some l →
      (((pathNodesList l).map (fun pn => pn.2)).map record).Perm
        (record n :: ((pathNodesList nested).map (fun pn => pn.2)).map record) := by
  induction nested with
  | nil => intro l h; simp [insertList] at h
  | cons c rest ihr =>
    intro l h
    by_cases hc : n.start ≥ c.start ∧ n.end_ ≤ c.end_
    · rw [insertList, if_pos hc] at h
      injection h with h
      subst h
      rw [preorderList_cons, preorderList_cons]
      simp only [List.map_cons, List.map_append, record_insertNode]
      have h1 := (ih c (List.mem_cons_self _ _)).append_right
        (((pathNodesList rest).map (fun pn => pn.2)).map record)
      exact ((List.Perm.cons (record c) h1).trans (List.Perm.swap _ _ _))
    · rw [insertList, if_neg hc] at h
      cases hr : insertList rest n with
      | none => rw [hr] at h; cases h
      | some l' =>
        rw [hr] at h
        injection h with h
        subst h
        rw [preorderList_cons, preorderList_cons]
        simp only [List.map_cons, List.map_append]
        have h1 := ihr (fun d hd => ih d (List.mem_cons_of_mem _ hd)) l' hr
        have h2 := (List.Perm.append_left ((preorder c).map record) h1).trans
          List.perm_middle
        exact ((List.Perm.cons (record c) h2).trans (List.Perm.swap _ _ _))

theorem records_insertNode (n : MatchValue) (hleaf : n.Nested = []) :
    ∀ t : MatchValue, ((preorder (insertNode t n)).map record).Perm
      (record n :: (preorder t).map record) := by
  intro t
  induction t using MatchValue.induct with
  | step k v nested s e ih =>
    rw [insertNode_eq, preorder_eq, preorder_eq]
    simp only
    cases hl : insertList nested n with
    | none =>
      simp only [Option.getD_none, pathNodesList_append, List.map_append]
      have : ((pathNodesList [n]).map (fun pn => pn.2)).map record = [record n] := by
        rw [preorderList_cons, preorder_leaf n hleaf]
        rfl
      rw [this]
      exact List.perm_append_singleton _ _
    | some l =>
      exact records_insertList n nested ih l hl

theorem groupStep_record (row : List Int) (names vals : List String) (bound b' : MatchValue)
    (j : Nat) (h : groupStep row names vals bound j = some b') :
    ∃ k v s e, groupRecord row names vals j = some (k, v, s, e)
      ∧ b' = insertNode bound ⟨k, v, [], s, e⟩ := by
  unfold groupStep at h
  unfold groupRecord
  cases hs : row[j]? with
  | none => simp [hs] at h
  | some s =>
    cases he : row[j + 1]? with
    | none => simp [hs, he] at h
    | some e =>
      cases hk : names[j / 2]? with
      | none => simp [hs, he, hk] at h
      | some key =>
        cases hv : vals[j / 2]? with
        | none => simp [hs, he, hk, hv] at h
        | some value =>
          refine ⟨key, value, s, e, rfl, ?_⟩
          simp only [hs, he, hk, hv, Option.bind_eq_bind, Option.some_bind] at h
          unfold insertNode
          cases hf : find bound s e with
          | none => simp [hf] at h ⊢; exact h.symm
          | some q => simp [hf] at h ⊢; exact h.symm

theorem groupLoop_records (row : List Int) (names vals : List String) (js : List Nat) :
    ∀ bound b : MatchValue, js.foldlM (groupStep row names vals) bound = some b →
      ((preorder b).map record).Perm
          ((preorder bound).map record ++ js.filterMap (groupRecord row names vals))
        ∧ (js.filterMap (groupRecord row names vals)).length = js.length := by
  induction js with
  | nil =>
    intro bound b h
    simp only [List.foldlM_nil, Option.pure_def, Option.some.injEq] at h
    subst h
    simp
  | cons j rest ih =>
    intro bound b h
    rw [List.foldlM_cons] at h
    cases hx : groupStep row names vals bound j with
    | none => rw [hx] at h; cases h
    | some b' =>
      rw [hx] at h
      obtain ⟨k, v, s, e, hr, rfl⟩ := groupStep_record row names vals bound b' j hx
      obtain ⟨h1, h2⟩ := ih _ b h
      have h3 := records_insertNode ⟨k, v, [], s, e⟩ rfl bound
      simp only [List.filterMap_cons, hr, List.length_cons, h2]
      refine ⟨?_, trivial⟩
      exact (h1.trans (h3.append_right _)).trans List.perm_middle.symm

theorem pathNodes_last : ∀ t : MatchValue, ∀ pn ∈ pathNodes t,
    pn.1.getLast? = some pn.2.Key := by
  intro t
  induction t using MatchValue.induct with
  | step k v nested s e ih =>
    rw [pathNodes_eq]
    simp only
    clear k v s e
    induction nested with
    | nil => intro pn h; simp [pathNodesList] at h
    | cons c rest ihr =>
      intro pn h
      simp only [pathNodesList, List.mem_cons, List.mem_append, List.mem_map] at h
      rcases h with h | ⟨q, hq, hqe⟩ | h
      · rw [h]; rfl
      · have h1 := ih c (List.mem_cons_self _ _) q hq
        have h2 : q.1 ≠ [] := by
          rw [pathNodes_eq] at hq
          exact pathNodesList_path_ne_nil _ q hq
        rw [← hqe]
        simp only
        obtain ⟨a, as, has⟩ := List.exists_cons_of_ne_nil h2
        rw [has] at h1 ⊢
        rw [List.getLast?_cons_cons]
        exact h1
      · exact ihr (fun d hd => ih d (List.mem_cons_of_mem _ hd)) pn h

theorem getAll_found_of_path (rm : Matches) (i : Int) (root : MatchValue)
    (h0 : 0 ≤ i) (hroot : rm[i.toNat]? = some root)
    (pn : List String × MatchValue) (hpn : pn ∈ pathNodes root) :
    (GetAll rm i pn.1).2 = true ∧ (Get rm i 0 pn.1).2 = true := by
  have hne : pn.1 ≠ [] := by
    rw [pathNodes_eq] at hpn
    exact pathNodesList_path_ne_nil _ pn hpn
  have hv : descend root pn.1 ≠ [] := by
    rw [descend_eq_valuesAt pn.1 hne root, valuesAt]
    intro hnil
    rw [List.map_eq_nil_iff, List.filter_eq_nil_iff] at hnil
    exact hnil pn hpn (by simp)
  have hg := GetAll_inrange rm i root pn.1 h0 hroot
  have hlen : 0 < (descend root pn.1).length := List.length_pos.mpr hv
  constructor
  · rw [hg]; simp [hlen]
  · unfold Get
    rw [hg]
    have hd : decide ((descend root pn.1).length > 0) = true := by simp [hlen]
    have hn : ¬ ((0 : Int) < 0 ∨ (0 : Int) ≥ ((descend root pn.1).length : Int)) := by omega
    simp only [hd, Bool.not_true, Bool.false_eq_true, if_false, dif_neg hn]

theorem findLoop_none (s e : Int) (nested : List MatchValue) :
    ∀ idx, findLoop nested idx s e = none →
      nested.all (fun d => !contains d s e) = true := by
  induction nested with
  | nil => intro idx _; rfl
  | cons c rest ih =>
    intro idx h
    by_cases hc : s ≥ c.start ∧ e ≤ c.end_
    · rw [findLoop, if_pos hc] at h
      cases hf : find c s e <;> simp [hf] at h
    · rw [findLoop, if_neg hc] at h
      simp only [List.all_cons, Bool.and_eq_true, Bool.not_eq_true']
      exact ⟨by simp [contains, hc], ih (idx + 1) h⟩

theorem findLoop_some (s e : Int) (nested : List MatchValue) :
    ∀ idx q, findLoop nested idx s e = some q →
      ∃ i c, nested[i]? = some c ∧ contains c s e = true
        ∧ (nested.take i).all (fun d => !contains d s e) = true
        ∧ q = (idx + i) :: (find c s e).getD [] := by
  induction nested with
  | nil => intro idx q h; simp [findLoop] at h
  | cons c rest ih =>
    intro idx q h
    by_cases hc : s ≥ c.start ∧ e ≤ c.end_
    · rw [findLoop, if_pos hc] at h
      refine ⟨0, c, by simp, by simp [contains, hc], rfl, ?_⟩
      cases hf : find c s e with
      | none => simp [hf] at h; simp [h]
      | some v => simp [hf] at h; simp [h]
    · rw [findLoop, if_neg hc] at h
      obtain ⟨i, d, h1, h2, h3, h4⟩ := ih (idx + 1) q h
      refine ⟨i + 1, d, by simpa using h1, h2, ?_, ?_⟩
      · simp only [List.take_succ_cons, List.all_cons, Bool.and_eq_true, Bool.not_eq_true']
        exact ⟨by simp [contains, hc], h3⟩
      · rw [h4]
        congr 1
        omega

theorem find_ne_nil (t : MatchValue) (s e : Int) (q : List Nat) (h : find t s e = some q) :
    q ≠ [] := by
  rw [find_eq] at h
  obtain ⟨i, c, _, _, _, hq⟩ := findLoop_some s e t.Nested 0 q h
  rw [hq]
  exact List.cons_ne_nil _ _

theorem find_firstChain (s e : Int) : ∀ t : MatchValue,
    firstChain t ((find t s e).getD []) s e = true := by
  intro t
  induction t using MatchValue.induct with
  | step k v nested s0 e0 ih =>
    rw [find_eq]
    simp only
    cases hf : findLoop nested 0 s e with
    | none =>
      simp only [Option.getD_none, firstChain]
      exact findLoop_none s e nested 0 hf
    | some q =>
      obtain ⟨i, c, h1, h2, h3, h4⟩ := findLoop_some s e nested 0 q hf
      simp only [Option.getD_some, h4, Nat.zero_add, firstChain, h1, h2, h3, Bool.true_and]
      exact ih c (List.getElem?_mem h1)

theorem chainSteps_of_firstChain (s e : Int) (q : List Nat) :
    ∀ t : MatchValue, firstChain t q s e = true → chainSteps t q s e = true := by
  induction q with
  | nil => intro t _; rfl
  | cons i p ih =>
    intro t h
    simp only [firstChain, chainSteps] at h ⊢
    cases hc : t.Nested[i]? with
    | none => simp [hc] at h
    | some c =>
      simp only [hc, Bool.and_eq_true] at h ⊢
      exact ⟨h.1, ih c h.2⟩

theorem take_all_getElem {α : Type} (P : α → Bool) (l : List α) (i j : Nat) (x : α)
    (hall : (l.take i).all P = true) (hj : j < i) (hx : l[j]? = some x) : P x = true := by
  rw [List.all_eq_true] at hall
  apply hall
  rw [List.mem_iff_getElem?]
  exact ⟨j, by rw [List.getElem?_take_of_lt hj]; exact hx⟩

theorem chain_prefix (s e : Int) (q : List Nat) :
    ∀ (t : MatchValue) (q' : List Nat), chainSteps t q s e = true →
      firstChain t q' s e = true → q <+: q' := by
  induction q with
  | nil => intro t q' _ _; exact List.nil_prefix
  | cons i p ih =>
    intro t q' h h'
    simp only [chainSteps] at h
    cases hc : t.Nested[i]? with
    | none => simp [hc] at h
    | some c =>
      simp only [hc, Bool.and_eq_true] at h
      obtain ⟨⟨h1, h2⟩, h3⟩ := h
      cases q' with
      | nil =>
        simp only [firstChain, List.all_eq_true] at h'
        have := h' c (List.getElem?_mem hc)
        simp [h1] at this
      | cons i' p' =>
        simp only [firstChain] at h'
        cases hc' : t.Nested[i']? with
        | none => simp [hc'] at h'
        | some c' =>
          simp only [hc', Bool.and_eq_true] at h'
          obtain ⟨⟨h1', h2'⟩, h3'⟩ := h'
          have hii : i = i' := by
            rcases Nat.lt_trichotomy i i' with hlt | heq | hgt
            · have := take_all_getElem _ _ i' i c h2' hlt hc
              simp [h1] at this
            · exact heq
            · have := take_all_getElem _ _ i i' c' h2 hgt hc'
              simp [h1'] at this
          subst hii
          rw [hc] at hc'
          injection hc' with hcc
          subst hcc
          exact List.cons_prefix_cons.mpr ⟨rfl, ih c p' h3 h3'⟩

theorem firstChain_unique (s e : Int) (t : MatchValue) (q q' : List Nat)
    (h : firstChain t q s e = true) (h' : firstChain t q' s e = true) : q = q' := by
  have h1 := chain_prefix s e q t q' (chainSteps_of_firstChain s e q t h) h'
  have h2 := chain_prefix s e q' t q (chainSteps_of_firstChain s e q' t h') h
  exact h1.eq_of_length (Nat.le_antisymm h1.length_le h2.length_le)

theorem find_iff_firstChain (t : MatchValue) (s e : Int) :
    (∀ q, find t s e = some q ↔ (q ≠ [] ∧ firstChain t q s e = true))
      ∧ (find t s e = none ↔ firstChain t [] s e = true) := by
  have hf := find_firstChain s e t
  constructor
  · intro q
    constructor
    · intro h
      rw [h] at hf
      exact ⟨find_ne_nil t s e q h, hf⟩
    · intro ⟨hne, hq⟩
      have := firstChain_unique s e t _ _ hf hq
      cases hfind : find t s e with
      | none => rw [hfind] at this; exact absurd this.symm hne
      | some q0 => rw [hfind] at this; simp at this; rw [this]
  · constructor
    · intro h
      rw [h] at hf
      exact hf
    · intro hq
      have := firstChain_unique s e t _ _ hf hq
      cases hfind : find t s e with
      | none => rfl
      | some q0 =>
        rw [hfind] at this
        exact absurd this (find_ne_nil t s e q0 hfind)

theorem appendAt_nil (t n : MatchValue) :
    appendAt t [] n = ⟨t.Key, t.Value, t.Nested ++ [n], t.start, t.end_⟩ := rfl

theorem appendAt_cons (t n : MatchValue) (i : Nat) (p : List Nat) :
    appendAt t (i :: p) n
      = ⟨t.Key, t.Value, t.Nested.modify (fun c => appendAt c p n) i, t.start, t.end_⟩ := rfl

theorem record_appendAt (t n : MatchValue) (r : List Nat) :
    record (appendAt t r n) = record t := by
  cases r <;> rfl

theorem contains_appendAt (t n : MatchValue) (r : List Nat) (s e : Int) :
    contains (appendAt t r n) s e = contains t s e := by
  cases r <;> rfl

theorem insertNode_appendAt (t n : MatchValue) :
    insertNode t n = appendAt t ((find t n.start n.end_).getD []) n := by
  unfold insertNode
  cases find t n.start n.end_ <;> rfl

theorem all_take_modify {α : Type} (P : α → Bool) (f : α → α) (hP : ∀ x, P (f x) = P x)
    (l : List α) : ∀ i j, ((l.modify f j).take i).all P = (l.take i).all P := by
  induction l with
  | nil => intro i j; cases j <;> simp
  | cons a l ih =>
    intro i j
    cases i with
    | zero => simp
    | succ i =>
      cases j with
      | zero => simp [hP]
      | succ j => simp [ih i j]

theorem chainSteps_appendAt (s e : Int) (m : MatchValue) (q : List Nat) :
    ∀ (t : MatchValue) (r : List Nat), chainSteps t q s e = true →
      chainSteps (appendAt t r m) q s e = true := by
  induction q with
  | nil => intro t r _; rfl
  | cons i p ih =>
    intro t r h
    simp only [chainSteps] at h
    cases hc : t.Nested[i]? with
    | none => simp [hc] at h
    | some c =>
      simp only [hc, Bool.and_eq_true] at h
      obtain ⟨⟨h1, h2⟩, h3⟩ := h
      have hlt : i < t.Nested.length := (List.getElem?_eq_some.mp hc).1
      cases r with
      | nil =>
        simp only [chainSteps, appendAt_nil, List.getElem?_append_left hlt, hc,
          List.take_append_of_le_length (Nat.le_of_lt hlt), h1, h2, h3, Bool.and_self]
      | cons j r' =>
        simp only [chainSteps, appendAt_cons, List.getElem?_modify, hc, Option.map_eq_map,
          Option.map_some']
        rw [all_take_modify _ _ (fun x => by rw [contains_appendAt]) t.Nested i j, h2]
        by_cases hji : j = i
        · simp only [hji, if_true, contains_appendAt, h1, Bool.true_and]
          exact ih c r' h3
        · simp only [hji, if_false, h1, h3, Bool.and_self]

theorem chainSteps_nodeAt (s e : Int) (q : List Nat) :
    ∀ t : MatchValue, chainSteps t q s e = true →
      ∃ x, nodeAt t q = some x ∧ (q ≠ [] → contains x s e = true) := by
  induction q with
  | nil => intro t _; exact ⟨t, rfl, fun h => absurd rfl h⟩
  | cons i p ih =>
    intro t h
    simp only [chainSteps] at h
    cases hc : t.Nested[i]? with
    | none => simp [hc] at h
    | some c =>
      simp only [hc, Bool.and_eq_true] at h
      obtain ⟨⟨h1, _⟩, h3⟩ := h
      obtain ⟨x, hx, hcont⟩ := ih c h3
      refine ⟨x, by simp only [nodeAt, hc, hx], fun _ => ?_⟩
      cases p with
      | nil =>
        simp only [nodeAt, Option.some.injEq] at hx
        rw [← hx]; exact h1
      | cons j p' => exact hcont (List.cons_ne_nil _ _)

theorem nodeAt_appendAt_new (n : MatchValue) (q : List Nat) :
    ∀ t x : MatchValue, nodeAt t q = some x →
      nodeAt (appendAt t q n) (q ++ [x.Nested.length]) = some n := by
  induction q with
  | nil =>
    intro t x h
    simp only [nodeAt, Option.some.injEq] at h
    subst h
    simp [nodeAt, appendAt_nil]
  | cons i p ih =>
    intro t x h
    simp only [nodeAt] at h
    cases hc : t.Nested[i]? with
    | none => simp [hc] at h
    | some c =>
      simp only [hc] at h
      simp only [List.cons_append, nodeAt, appendAt_cons, List.getElem?_modify, hc,
        Option.map_eq_map, Option.map_some', if_true]
      exact ih c x h

theorem chainSteps_new (n : MatchValue) (q : List Nat) :
    ∀ t x : MatchValue, firstChain t q n.start n.end_ = true → nodeAt t q = some x →
      chainSteps (appendAt t q n) (q ++ [x.Nested.length]) n.start n.end_ = true := by
  induction q with
  | nil =>
    intro t x h hx
    simp only [nodeAt, Option.some.injEq] at hx
    subst hx
    simp only [firstChain] at h
    have hself : contains n n.start n.end_ = true := by simp [contains]
    simp [chainSteps, appendAt_nil, hself, h]
  | cons i p ih =>
    intro t x h hx
    simp only [firstChain] at h
    simp only [nodeAt] at hx
    cases hc : t.Nested[i]? with
    | none => simp [hc] at h
    | some c =>
      simp only [hc, Bool.and_eq_true] at h
      simp only [hc] at hx
      obtain ⟨⟨h1, h2⟩, h3⟩ := h
      simp only [List.cons_append, chainSteps, appendAt_cons, List.getElem?_modify, hc,
        Option.map_eq_map, Option.map_some', if_true, contains_appendAt, h1, Bool.true_and]
      rw [all_take_modify _ _ (fun y => by rw [contains_appendAt]) t.Nested i i, h2]
      simp only [Bool.true_and]
      exact ih c x h3 hx

theorem nodeAt_appendAt_persist (m : MatchValue) (p : List Nat) :
    ∀ (t x : MatchValue) (r : List Nat), nodeAt t p = some x →
      ∃ x', nodeAt (appendAt t r m) p = some x' ∧ record x' = record x := by
  induction p with
  | nil =>
    intro t x r h
    simp only [nodeAt, Option.some.injEq] at h
    subst h
    exact ⟨appendAt t r m, rfl, record_appendAt t m r⟩
  | cons j p' ih =>
    intro t x r h
    simp only [nodeAt] at h
    cases hc : t.Nested[j]? with
    | none => simp [hc] at h
    | some c =>
      simp only [hc] at h
      have hlt : j < t.Nested.length := (List.getElem?_eq_some.mp hc).1
      cases r with
      | nil =>
        refine ⟨x, ?_, rfl⟩
        simp only [nodeAt, appendAt_nil, List.getElem?_append_left hlt, hc, h]
      | cons i r' =>
        by_cases hij : i = j
        · obtain ⟨x', hx', hrec⟩ := ih c x r' h
          refine ⟨x', ?_, hrec⟩
          simp only [nodeAt, appendAt_cons, List.getElem?_modify, hc, Option.map_eq_map,
            Option.map_some', hij, if_true, hx']
        · refine ⟨x, ?_, rfl⟩
          simp only [nodeAt, appendAt_cons, List.getElem?_modify, hc, Option.map_eq_map,
            Option.map_some', hij, if_false, h]

theorem chainSteps_build (s e : Int) (q : List Nat) (ms : List MatchValue) :
    ∀ t : MatchValue, chainSteps t q s e = true → chainSteps (build t ms) q s e = true := by
  induction ms with
  | nil => intro t h; exact h
  | cons m rest ih =>
    intro t h
    rw [build_cons]
    apply ih
    rw [insertNode_appendAt]
    exact chainSteps_appendAt s e m q t _ h

theorem nodeAt_build_persist (p : List Nat) (ms : List MatchValue) :
    ∀ t x : MatchValue, nodeAt t p = some x →
      ∃ x', nodeAt (build t ms) p = some x' ∧ record x' = record x := by
  induction ms with
  | nil => intro t x h; exact ⟨x, h, rfl⟩
  | cons m rest ih =>
    intro t x h
    rw [build_cons, insertNode_appendAt]
    obtain ⟨x1, h1, r1⟩ := nodeAt_appendAt_persist m p t x _ h
    obtain ⟨x2, h2, r2⟩ := ih _ x1 h1
    exact ⟨x2, h2, r2.trans r1⟩

theorem insertPath_spec (t n : MatchValue) :
    firstChain t ((find t n.start n.end_).getD []) n.start n.end_ = true
      ∧ (∃ x, nodeAt t ((find t n.start n.end_).getD []) = some x
          ∧ insertPath t n = (find t n.start n.end_).getD [] ++ [x.Nested.length])
      ∧ nodeAt (insertNode t n) (insertPath t n) = some n
      ∧ chainSteps (insertNode t n) (insertPath t n) n.start n.end_ = true := by
  have hf := find_firstChain n.start n.end_ t
  obtain ⟨x, hx, _⟩ := chainSteps_nodeAt n.start n.end_ _ t
    (chainSteps_of_firstChain _ _ _ t hf)
  have hp : insertPath t n = (find t n.start n.end_).getD [] ++ [x.Nested.length] := by
    simp only [insertPath, hx]
  refine ⟨hf, ⟨x, hx, hp⟩, ?_, ?_⟩
  · rw [hp, insertNode_appendAt]
    exact nodeAt_appendAt_new n _ t x hx
  · rw [hp, insertNode_appendAt]
    exact chainSteps_new n _ t x hf hx

theorem groupLoop_build (row : List Int) (names vals : List String) (js : List Nat) :
    ∀ bound b : MatchValue, js.foldlM (groupStep row names vals) bound = some b →
      b = build bound ((js.filterMap (groupRecord row names vals)).map leafOfRecord) := by
  induction js with
  | nil =>
    intro bound b h
    simp only [List.foldlM_nil, Option.pure_def, Option.some.injEq] at h
    subst h
    rfl
  | cons j rest ih =>
    intro bound b h
    rw [List.foldlM_cons] at h
    cases hx : groupStep row names vals bound j with
    | none => rw [hx] at h; cases h
    | some b' =>
      rw [hx] at h
      obtain ⟨k, v, s, e, hr, rfl⟩ := groupStep_record row names vals bound b' j hx
      rw [ih _ b h]
      simp only [List.filterMap_cons, hr, List.map_cons, build_cons]
      rfl

theorem nodeAt_appendAt_grow (m : MatchValue) (p : List Nat) :
    ∀ (t x : MatchValue) (r : List Nat), nodeAt t p = some x →
      ∃ x', nodeAt (appendAt t r m) p = some x'
        ∧ x.Nested.length ≤ x'.Nested.length := by
  induction p with
  | nil =>
    intro t x r h
    simp only [nodeAt, Option.some.injEq] at h
    subst h
    refine ⟨appendAt t r m, rfl, ?_⟩
    cases r with
    | nil => simp [appendAt_nil]
    | cons i r' => simp [appendAt_cons]
  | cons j p' ih =>
    intro t x r h
    simp only [nodeAt] at h
    cases hc : t.Nested[j]? with
    | none => simp [hc] at h
    | some c =>
      simp only [hc] at h
      have hlt : j < t.Nested.length := (List.getElem?_eq_some.mp hc).1
      cases r with
      | nil =>
        refine ⟨x, ?_, Nat.le_refl _⟩
        simp only [nodeAt, appendAt_nil, List.getElem?_append_left hlt, hc, h]
      | cons i r' =>
        by_cases hij : i = j
        · obtain ⟨x', hx', hlen⟩ := ih c x r' h
          refine ⟨x', ?_, hlen⟩
          simp only [nodeAt, appendAt_cons, List.getElem?_modify, hc, Option.map_eq_map,
            Option.map_some', hij, if_true, hx']
        · refine ⟨x, ?_, Nat.le_refl _⟩
          simp only [nodeAt, appendAt_cons, List.getElem?_modify, hc, Option.map_eq_map,
            Option.map_some', hij, if_false, h]

theorem nodeAt_appendAt_count (n : MatchValue) (q : List Nat) :
    ∀ t x : MatchValue, nodeAt t q = some x →
      ∃ x', nodeAt (appendAt t q n) q = some x'
        ∧ x'.Nested.length = x.Nested.length + 1 := by
  induction q with
  | nil =>
    intro t x h
    simp only [nodeAt, Option.some.injEq] at h
    subst h
    exact ⟨appendAt t [] n, rfl, by simp [appendAt_nil]⟩
  | cons i p ih =>
    intro t x h
    simp only [nodeAt] at h
    cases hc : t.Nested[i]? with
    | none => simp [hc] at h
    | some c =>
      simp only [hc] at h
      obtain ⟨x', hx', hlen⟩ := ih c x h
      refine ⟨x', ?_, hlen⟩
      simp only [nodeAt, appendAt_cons, List.getElem?_modify, hc, Option.map_eq_map,
        Option.map_some', if_true, hx']

theorem insertPath_eq (t n : MatchValue) (p : List Nat) (a : Nat)
    (h : insertPath t n = p ++ [a]) :
    p = (find t n.start n.end_).getD [] ∧ ∃ x, nodeAt t p = some x ∧ a = x.Nested.length := by
  obtain ⟨_, ⟨x, hx, hp⟩, _, _⟩ := insertPath_spec t n
  rw [hp] at h
  obtain ⟨h1, h2⟩ := List.append_inj' h rfl
  simp only [List.cons.injEq, and_true] at h2
  exact ⟨h1.symm, x, h1 ▸ hx, h2.symm⟩

theorem insertPaths_lower (ns : List MatchValue) :
    ∀ (t x : MatchValue) (g : Nat) (p : List Nat) (b : Nat), nodeAt t p = some x →
      (insertPaths t ns)[g]? = some (p ++ [b]) → x.Nested.length ≤ b := by
  induction ns with
  | nil => intro t x g p b _ h; simp [insertPaths] at h
  | cons n rest ih =>
    intro t x g p b hx h
    cases g with
    | zero =>
      simp only [insertPaths, List.getElem?_cons_zero, Option.some.injEq] at h
      obtain ⟨_, y, hy, hb⟩ := insertPath_eq t n p b h
      rw [hx] at hy
      injection hy with hy
      rw [hb, hy]
    | succ g =>
      simp only [insertPaths, List.getElem?_cons_succ] at h
      obtain ⟨x', hx', hlen⟩ := nodeAt_appendAt_grow n p t x
        ((find t n.start n.end_).getD []) hx
      rw [← insertNode_appendAt] at hx'
      exact Nat.le_trans hlen (ih _ x' g p b hx' h)

theorem insertPaths_ascending (ns : List MatchValue) :
    ∀ (t : MatchValue) (g₁ g₂ : Nat) (p : List Nat) (a b : Nat), g₁ < g₂ →
      (insertPaths t ns)[g₁]? = some (p ++ [a]) →
      (insertPaths t ns)[g₂]? = some (p ++ [b]) → a < b := by
  induction ns with
  | nil => intro t g₁ g₂ p a b _ h; simp [insertPaths] at h
  | cons n rest ih =>
    intro t g₁ g₂ p a b hlt h1 h2
    cases g₂ with
    | zero => omega
    | succ g₂ =>
      simp only [insertPaths, List.getElem?_cons_succ] at h2
      cases g₁ with
      | zero =>
        simp only [insertPaths, List.getElem?_cons_zero, Option.some.injEq] at h1
        obtain ⟨hp, x, hx, ha⟩ := insertPath_eq t n p a h1
        obtain ⟨x', hx', hlen⟩ := nodeAt_appendAt_count n p t x hx
        rw [hp, ← insertNode_appendAt, ← hp] at hx'
        have := insertPaths_lower rest _ x' g₂ p b hx' h2
        omega
      | succ g₁ =>
        simp only [insertPaths, List.getElem?_cons_succ] at h1
        exact ih _ g₁ g₂ p a b (by omega) h1 h2

theorem insertPaths_valid (ns : List MatchValue) :
    ∀ (t : MatchValue) (g : Nat) (pth : List Nat), (insertPaths t ns)[g]? = some pth →
      ∃ y n, ns[g]? = some n ∧ nodeAt (build t ns) pth = some y ∧ record y = record n := by
  induction ns with
  | nil => intro t g pth h; simp [insertPaths] at h
  | cons n rest ih =>
    intro t g pth h
    cases g with
    | zero =>
      simp only [insertPaths, List.getElem?_cons_zero, Option.some.injEq] at h
      subst h
      obtain ⟨_, _, hnew, _⟩ := insertPath_spec t n
      obtain ⟨y, hy, hr⟩ := nodeAt_build_persist (insertPath t n) rest _ n hnew
      exact ⟨y, n, by simp, by rw [build_cons]; exact hy, hr⟩
    | succ g =>
      simp only [insertPaths, List.getElem?_cons_succ] at h
      obtain ⟨y, m, hm, hy, hr⟩ := ih _ g pth h
      exact ⟨y, m, by simpa using hm, by rw [build_cons]; exact hy, hr⟩

theorem length_insertPaths (ns : List MatchValue) :
    ∀ t : MatchValue, (insertPaths t ns).length = ns.length := by
  induction ns with
  | nil => intro t; rfl
  | cons n rest ih => intro t; simp [insertPaths, ih]

theorem record_build (ns : List MatchValue) : ∀ t : MatchValue,
    record (build t ns) = record t := by
  induction ns with
  | nil => intro t; rfl
  | cons n rest ih =>
    intro t
    rw [build_cons, ih, record_insertNode]

theorem rowParticipates_span (row : List Int) (hc : rowParticipates row = true) (rs re : Int)
    (h0 : row[0]? = some rs) (h1 : row[1]? = some re) (i : Nat) (s e : Int)
    (hs : row[2 + 2 * i]? = some s) (he : row[2 + 2 * i + 1]? = some e) :
    rs ≤ s ∧ s ≤ e ∧ e ≤ re := by
  match row, hc, h0, h1, hs, he with
  | a :: b :: rest, hc, h0, h1, hs, he =>
    simp only [List.getElem?_cons_zero, List.getElem?_cons_succ, Option.some.injEq] at h0 h1
    subst h0 h1
    have e1 : 2 + 2 * i = 2 * i + 1 + 1 := by ring
    have e2 : 2 + 2 * i + 1 = 2 * i + 1 + 1 + 1 := by ring
    rw [e1] at hs
    rw [e2] at he
    simp only [List.getElem?_cons_succ] at hs he
    have hm := spanPairs_mem i rest s e hs he
    simp only [rowParticipates, List.all_eq_true, decide_eq_true_eq] at hc
    exact hc (s, e) hm
  | [a], _, _, h1, _, _ => simp at h1
  | [], _, h0, _, _, _ => simp at h0

theorem within_span_eq (s e : Int) (a b : MatchValue) (h1 : a.start = b.start)
    (h2 : a.end_ = b.end_) : within s e a = within s e b := by
  simp [within, h1, h2]

theorem within_of_contains (c n : MatchValue) (h : n.start ≥ c.start ∧ n.end_ ≤ c.end_) :
    within c.start c.end_ n = true := by
  simp only [within, decide_eq_true_eq]
  exact ⟨h.1, h.2⟩

theorem find_nodeAt_contains (bound : MatchValue) (s e : Int) (q : List Nat)
    (h : find bound s e = some q) :
    ∃ x, nodeAt bound q = some x ∧ x.start ≤ s ∧ e ≤ x.end_ := by
  have hf := find_firstChain s e bound
  rw [h] at hf
  obtain ⟨x, hx, hc⟩ := chainSteps_nodeAt s e q bound
    (chainSteps_of_firstChain s e q bound hf)
  have := hc (find_ne_nil bound s e q h)
  simp only [contains, decide_eq_true_eq] at this
  exact ⟨x, hx, this.1, this.2⟩

theorem firstChain_end_no_child (s e : Int) (q : List Nat) :
    ∀ t x : MatchValue, firstChain t q s e = true → nodeAt t q = some x →
      x.Nested.all (fun d => !contains d s e) = true := by
  induction q with
  | nil =>
    intro t x h hx
    simp only [nodeAt, Option.some.injEq] at hx
    subst hx
    simpa [firstChain] using h
  | cons i p ih =>
    intro t x h hx
    simp only [firstChain] at h
    simp only [nodeAt] at hx
    cases hc : t.Nested[i]? with
    | none => simp [hc] at h
    | some c =>
      simp only [hc, Bool.and_eq_true] at h
      simp only [hc] at hx
      exact ih c x h.2 hx

theorem not_contains_iff (c : MatchValue) (s e : Int) :
    (!contains c s e) = true ↔ ¬ (s ≥ c.start ∧ e ≤ c.end_) := by
  simp only [contains, Bool.not_eq_true', decide_eq_false_iff_not]

theorem getAll_none_of_no_path (rm : Matches) (i : Int) (root : MatchValue)
    (keys : List String) (h0 : 0 ≤ i) (hroot : rm[i.toNat]? = some root) (hk : keys ≠ [])
    (hno : ∀ pn ∈ pathNodes root, pn.1 ≠ keys) (nth : Int) :
    GetAll rm i keys = ([], false) ∧ Get rm i nth keys = ("", false) := by
  have hv : descend root keys = [] := by
    rw [descend_eq_valuesAt keys hk root, valuesAt, List.map_eq_nil_iff, List.filter_eq_nil_iff]
    intro pn h
    simpa using hno pn h
  have hg : GetAll rm i keys = ([], false) := by
    rw [GetAll_inrange rm i root keys h0 hroot, hv]
    rfl
  exact ⟨hg, by simp [Get, hg]⟩

theorem mem_Keys_iff (rm : Matches) (i : Int) (root : MatchValue) (keys : List String)
    (h0 : 0 ≤ i) (hroot : rm[i.toNat]? = some root) :
    keys ∈ Keys rm i ↔ ∃ pn ∈ pathNodes root, pn.1 = keys := by
  rw [Keys_inrange rm i root h0 hroot, mem_keepFirst, keyPaths, List.mem_map]

/-! ## Claims on the query engine -/

/-- C2: `descend` follows the recursive multi-valued descent. For every node `n`,
key `k` and key list `ks`, `descend n (k :: ks)` is the concatenation, over the
children of `n` with key `k` in child order, of `descend c ks`, and
`descend n [] = [n.Value]`; for an in-range index `i` with root `root`,
`GetAll` returns the descent worded by the specification (`descendSpec`) and
reports found exactly when that list is non-empty. -/
theorem getAll_recursive_descent (rm : Matches) (i : Int) (root : MatchValue)
    (keys : List String) (h0 : 0 ≤ i) (hroot : rm[i.toNat]? = some root)
    (n : MatchValue) (k : String) (ks : List String) :
    descend n (k :: ks)
        = (n.Nested.filter (fun c => decide (c.Key = k))).flatMap (fun c => descend c ks)
      ∧ descend n [] = [n.Value]
      ∧ (GetAll rm i keys).1 = descendSpec root keys
      ∧ ((GetAll rm i keys).2 = true ↔ descendSpec root keys ≠ []) := by
  have hspec : ∀ (ks : List String) (m : MatchValue), descend m ks = descendSpec m ks := by
    intro ks
    induction ks with
    | nil => intro m; simp [descend, descendSpec]
    | cons a as ih =>
      intro m
      rw [descend_cons, descendSpec]
      congr 1
      funext c
      exact ih c
  refine ⟨descend_cons n k ks, descend_nil n, ?_, ?_⟩
  · rw [GetAll_inrange rm i root keys h0 hroot, hspec]
  · rw [GetAll_inrange rm i root keys h0 hroot, hspec]
    cases descendSpec root keys <;> simp

theorem getAll_recursive_descent_witness :
    (0 : Int) ≤ 0 ∧ [exTree][(0 : Int).toNat]? = some exTree
      ∧ (GetAll [exTree] 0 ["a", "d"]).1 = descendSpec exTree ["a", "d"]
      ∧ descendSpec exTree ["a", "d"] = ["1", "6"] :=
  ⟨by decide, rfl,
    (getAll_recursive_descent [exTree] 0 exTree ["a", "d"] (by decide) rfl exTree "a" ["d"]).2.2.1,
    by decide⟩

/-- C4: for every index `i` with `0 ≤ i < Len()`, `GetAll(i)` with no keys returns
the one-element list holding the value of root `i`, and found. -/
theorem getAll_no_keys (rm : Matches) (i : Int) (h0 : 0 ≤ i) (hlt : i < Len rm) :
    ∃ root, rm[i.toNat]? = some root ∧ GetAll rm i [] = ([root.Value], true) := by
  have hl : i.toNat < rm.length := by unfold Len at hlt; omega
  refine ⟨rm[i.toNat], List.getElem?_eq_getElem hl, ?_⟩
  rw [GetAll_inrange rm i _ [] h0 (List.getElem?_eq_getElem hl)]
  simp [descend]

theorem getAll_no_keys_witness :
    (0 : Int) ≤ 0 ∧ (0 : Int) < Len [exTree]
      ∧ ∃ root, [exTree][(0 : Int).toNat]? = some root
          ∧ GetAll [exTree] 0 [] = ([root.Value], true) :=
  ⟨by decide, by decide, getAll_no_keys [exTree] 0 (by decide) (by decide)⟩

/-- C5: `Get` is `GetAll` followed by indexing. `Get(i, nth, keys)` returns
`(v, true)` exactly when `GetAll(i, keys)` reports found, `0 ≤ nth < len(vs)` and
`v = vs[nth]`; in every other case it returns the empty string and false. -/
theorem get_is_getAll_indexed (rm : Matches) (i nth : Int) (keys : List String) :
    (∀ v, Get rm i nth keys = (v, true) ↔
        ((GetAll rm i keys).2 = true ∧ 0 ≤ nth ∧ nth < ((GetAll rm i keys).1.length : Int)
          ∧ (GetAll rm i keys).1[nth.toNat]? = some v))
      ∧ (¬ ((GetAll rm i keys).2 = true ∧ 0 ≤ nth
            ∧ nth < ((GetAll rm i keys).1.length : Int)) → Get rm i nth keys = ("", false)) := by
  unfold Get
  rcases hg : GetAll rm i keys with ⟨values, ok⟩
  cases ok with
  | false => simp
  | true =>
    by_cases h : nth < 0 ∨ nth ≥ (values.length : Int)
    · simp only [Bool.not_true, Bool.false_eq_true, if_false, dif_pos h]
      constructor
      · intro v
        simp only [Prod.mk.injEq, Bool.false_eq_true, and_false, true_and, false_iff]
        omega
      · intro _; trivial
    · simp only [Bool.not_true, Bool.false_eq_true, if_false, dif_neg h]
      have hl : nth.toNat < values.length := by omega
      constructor
      · intro v
        simp only [Prod.mk.injEq, and_true, true_and, List.get_eq_getElem,
          List.getElem?_eq_getElem hl, Option.some.injEq]
        constructor
        · intro hv; exact ⟨by omega, by omega, hv⟩
        · intro hv; exact hv.2.2
      · intro hc
        exact absurd ⟨trivial, by omega, by omega⟩ hc

/-- C8: an out-of-range index reports not-found in every operation. For `i < 0` or
`i ≥ Len()`, `GetAll` returns `(nil, false)`, `Get` returns `("", false)`,
`GetGroup` returns `(nil, false)` and `Keys` returns nothing; for every
`0 ≤ i < Len()`, `GetGroup(i)` returns root `i` and true. All four operations are
total functions of the index. -/
theorem index_out_of_range (rm : Matches) (i nth : Int) (keys : List String) :
    ((i < 0 ∨ i ≥ Len rm) →
        GetAll rm i keys = ([], false) ∧ Get rm i nth keys = ("", false)
          ∧ GetGroup rm i = (none, false) ∧ Keys rm i = [])
      ∧ ((0 ≤ i ∧ i < Len rm) →
        ∃ root, rm[i.toNat]? = some root ∧ GetGroup rm i = (some root, true)) := by
  constructor
  · intro h
    have h' : i < 0 ∨ i ≥ (rm.length : Int) := h
    refine ⟨GetAll_outrange rm i keys h, ?_, ?_, ?_⟩
    · simp [Get, GetAll_outrange rm i keys h]
    · simp only [GetGroup, dif_pos h']
    · simp only [Keys, dif_pos h']
  · intro h
    have hl : i.toNat < rm.length := by have := h.2; unfold Len at this; omega
    have hn : ¬ (i < 0 ∨ i ≥ (rm.length : Int)) := by omega
    refine ⟨rm[i.toNat], List.getElem?_eq_getElem hl, ?_⟩
    simp only [GetGroup, dif_neg hn, List.get_eq_getElem]

theorem index_out_of_range_witness :
    ((5 : Int) < 0 ∨ (5 : Int) ≥ Len [exTree])
      ∧ GetAll [exTree] 5 ["a"] = ([], false) ∧ Get [exTree] 5 0 ["a"] = ("", false)
      ∧ GetGroup [exTree] 5 = (none, false) ∧ Keys [exTree] 5 = [] :=
  ⟨by decide, (index_out_of_range [exTree] 5 0 ["a"]).1 (by decide)⟩

/-- C3: multiplicity of `GetAll`. For an in-range index `i` with root `root` and a
non-empty key list, `GetAll(i, keys)` returns one value per node of the tree whose
key-path equals `keys`, in depth-first preorder; for a single key `k` it returns
the values of all the children of the root carrying `k`, in child order, so as
many values as there are such children. -/
theorem getAll_multiplicity (rm : Matches) (i : Int) (root : MatchValue)
    (keys : List String) (h0 : 0 ≤ i) (hroot : rm[i.toNat]? = some root) (hk : keys ≠ []) :
    (GetAll rm i keys).1
        = ((pathNodes root).filter (fun pn => decide (pn.1 = keys))).map (fun pn => pn.2.Value)
      ∧ ∀ k : String,
          (GetAll rm i [k]).1
              = (root.Nested.filter (fun c => decide (c.Key = k))).map (fun c => c.Value)
            ∧ (GetAll rm i [k]).1.length = root.Nested.countP (fun c => decide (c.Key = k)) := by
  constructor
  · rw [GetAll_inrange rm i root keys h0 hroot, descend_eq_valuesAt keys hk root, valuesAt]
  · intro k
    have h : (GetAll rm i [k]).1
        = (root.Nested.filter (fun c => decide (c.Key = k))).map (fun c => c.Value) := by
      rw [GetAll_inrange rm i root [k] h0 hroot, descend_cons]
      simp only [descend_nil]
      generalize root.Nested.filter (fun c => decide (c.Key = k)) = l
      induction l with
      | nil => rfl
      | cons a l ih => simp [List.flatMap_cons, ih]
    refine ⟨h, ?_⟩
    rw [h, List.length_map, List.countP_eq_length_filter]

theorem getAll_multiplicity_witness :
    (0 : Int) ≤ 0 ∧ [exTree][(0 : Int).toNat]? = some exTree ∧ ["a", "d"] ≠ []
      ∧ (GetAll [exTree] 0 ["a", "d"]).1
          = ((pathNodes exTree).filter (fun pn => decide (pn.1 = ["a", "d"]))).map
              (fun pn => pn.2.Value)
      ∧ (GetAll [exTree] 0 ["a"]).1.length = 2 :=
  ⟨by decide, rfl, by decide,
    (getAll_multiplicity [exTree] 0 exTree ["a", "d"] (by decide) rfl (by decide)).1,
    by decide⟩

/-- C9: key path not found. For an in-range index `i` with root `root` and a
non-empty key list `keys`, if no node of the tree has key-path `keys`, then
`GetAll(i, keys)` returns an empty result and false, and `Get(i, nth, keys)`
returns the empty string and false for every `nth`. -/
theorem getAll_path_not_found (rm : Matches) (i : Int) (root : MatchValue)
    (keys : List String) (h0 : 0 ≤ i) (hroot : rm[i.toNat]? = some root) (hk : keys ≠ [])
    (hno : ∀ pn ∈ pathNodes root, pn.1 ≠ keys) (nth : Int) :
    GetAll rm i keys = ([], false) ∧ Get rm i nth keys = ("", false) := by
  have hv : descend root keys = [] := by
    rw [descend_eq_valuesAt keys hk root, valuesAt, List.map_eq_nil_iff, List.filter_eq_nil_iff]
    intro pn h
    simpa using hno pn h
  have hg : GetAll rm i keys = ([], false) := by
    rw [GetAll_inrange rm i root keys h0 hroot, hv]
    rfl
  exact ⟨hg, by simp [Get, hg]⟩

theorem getAll_path_not_found_witness :
    (0 : Int) ≤ 0 ∧ [exTree][(0 : Int).toNat]? = some exTree ∧ ["a", "x"] ≠ []
      ∧ (∀ pn ∈ pathNodes exTree, pn.1 ≠ ["a", "x"])
      ∧ GetAll [exTree] 0 ["a", "x"] = ([], false) ∧ Get [exTree] 0 0 ["a", "x"] = ("", false) :=
  ⟨by decide, rfl, by decide, by decide,
    getAll_path_not_found [exTree] 0 exTree ["a", "x"] (by decide) rfl (by decide)
      (by decide) 0⟩

/-- C6: `Keys` deduplicates by full path equality. For an in-range index `i` with
root `root`, the key-path of every non-root node of the tree occurs exactly once
in `Keys(i)`, and every element of `Keys(i)` is the key-path of some non-root node. -/
theorem keys_dedup (rm : Matches) (i : Int) (root : MatchValue)
    (h0 : 0 ≤ i) (hroot : rm[i.toNat]? = some root) :
    (∀ pn ∈ pathNodes root, (Keys rm i).countP (fun q => decide (q = pn.1)) = 1)
      ∧ (∀ q ∈ Keys rm i, ∃ pn ∈ pathNodes root, pn.1 = q) := by
  rw [Keys_inrange rm i root h0 hroot]
  constructor
  · intro pn hpn
    apply countP_eq_one_of_nodup _ _ (nodup_keepFirst _)
    rw [mem_keepFirst, keyPaths]
    exact List.mem_map.mpr ⟨pn, hpn, rfl⟩
  · intro q hq
    rw [mem_keepFirst, keyPaths] at hq
    exact List.mem_map.mp hq

theorem keys_dedup_witness :
    (0 : Int) ≤ 0 ∧ [exTree][(0 : Int).toNat]? = some exTree
      ∧ (∀ pn ∈ pathNodes exTree, (Keys [exTree] 0).countP (fun q => decide (q = pn.1)) = 1)
      ∧ (∀ q ∈ Keys [exTree] 0, ∃ pn ∈ pathNodes exTree, pn.1 = q) :=
  ⟨by decide, rfl, keys_dedup [exTree] 0 exTree (by decide) rfl⟩

/-- C7: order of `Keys`. For an in-range index `i` with root `root`, `Keys(i)` is the
list of the key-paths of all non-root nodes in depth-first preorder from which
every path that already occurred earlier in the list has been deleted. -/
theorem keys_preorder_first_occurrence (rm : Matches) (i : Int) (root : MatchValue)
    (h0 : 0 ≤ i) (hroot : rm[i.toNat]? = some root) :
    Keys rm i = keepFirst ((pathNodes root).map (fun pn => pn.1)) :=
  Keys_inrange rm i root h0 hroot

theorem keys_preorder_first_occurrence_witness :
    (0 : Int) ≤ 0 ∧ [exTree][(0 : Int).toNat]? = some exTree
      ∧ Keys [exTree] 0 = keepFirst ((pathNodes exTree).map (fun pn => pn.1))
      ∧ Keys [exTree] 0 = [["a"], ["a", "d"], ["b"], ["b", "d"]] :=
  ⟨by decide, rfl, keys_preorder_first_occurrence [exTree] 0 exTree (by decide) rfl, by decide⟩

/-! ## Claims on the builder -/

/-- C1: round trip of the nesting reconstruction. For every tree in which every
non-root node has a non-empty span contained in its parent's span and siblings
have pairwise disjoint spans, the builder, given the root as group 0 and the
other nodes as groups `1..G` in depth-first preorder, returns that very tree:
same structure, same child order, same key, value and span at every node. -/
theorem tree_roundtrip (t : MatchValue) (hw : wellNested t = true) :
    tree [indexesOf t] (namesOf t) [valuesOf t] = some [t] := by
  have hlen : ((indexesOf t).length - 1) / 2 = (preorder t).length := by
    have : ∀ l : List MatchValue, (l.flatMap (fun n => [n.start, n.end_])).length = 2 * l.length := by
      intro l
      induction l with
      | nil => rfl
      | cons a l ih => simp [List.flatMap_cons, ih]; ring
    simp only [indexesOf, List.length_cons, this]
    omega
  have hloop : (List.range' 2 (preorder t).length 2).foldlM
      (groupStep (indexesOf t) (namesOf t) (valuesOf t)) (leafOf t)
        = some (build (leafOf t) ((preorder t).map leafOf)) :=
    groupLoop_encoded t.start t.end_ t.Key t.Value (preorder t) [] (leafOf t)
  have hn0 : (namesOf t)[0]? = some t.Key := by simp [namesOf]
  have hv0 : (valuesOf t)[0]? = some t.Value := by simp [valuesOf]
  have hi0 : (indexesOf t)[0]? = some t.start := by simp [indexesOf]
  have hi1 : (indexesOf t)[1]? = some t.end_ := by simp [indexesOf]
  have hleaf : (⟨t.Key, t.Value, [], t.start, t.end_⟩ : MatchValue) = leafOf t := rfl
  have hstep : matchStep [indexesOf t] (namesOf t) [valuesOf t] [] 0 = some [t] := by
    unfold matchStep
    simp only [List.getElem?_cons_zero, Option.bind_eq_bind, Option.some_bind, hn0, hv0, hi0,
      hi1, hlen, hleaf, hloop, build_roundtrip t hw]
    rfl
  show List.foldlM _ _ (List.range 1) = _
  rw [show List.range 1 = [0] from rfl, List.foldlM_cons, hstep]
  rfl

theorem tree_roundtrip_witness :
    wellNested exNested = true
      ∧ tree [indexesOf exNested] (namesOf exNested) [valuesOf exNested] = some [exNested] :=
  ⟨by decide, tree_roundtrip exNested (by decide)⟩

/-- C10, as stated, fails: on the record of `TestMultipleNestedGroups`, which
satisfies the input contract, the builder returns a tree in which the node of the
group that did not participate has span `(-1, -1)` under the root `(0, 3)`. -/
theorem containment_counterexample :
    (∀ row ∈ [exAltRow], rowContract row = true)
      ∧ tree [exAltRow] ["", "outer", "inner1", "inner2"] [["123", "123", "123", ""]]
          = some [exAltTree]
      ∧ containedInParent exAltTree = false :=
  ⟨by decide, rfl, by decide⟩

/-- C10, amended: for every forest the builder returns on input in which every
group span is `(-1, -1)` or lies within the span of group 0, every non-root node
whose span is not `(-1, -1)` has its span contained in its parent's span. -/
theorem containment_or_absent (indexes : List (List Int)) (names : List String)
    (match_ : List (List String)) (forest : Matches)
    (hc : ∀ row ∈ indexes, rowContract row = true)
    (h : tree indexes names match_ = some forest) :
    ∀ t ∈ forest, childrenAll withinOrAbsent t = true := by
  apply tree_invariant withinOrAbsent ?_ ?_ indexes names match_ ?_ forest h
  · intro s e a b h1 h2
    simp [withinOrAbsent, within, h1, h2]
  · intro c n hcn
    simp only [withinOrAbsent, within, Bool.or_eq_true, decide_eq_true_eq]
    exact Or.inl ⟨hcn.1, hcn.2⟩
  · intro row hrow rs re hrs hre i s e hs he k v
    have := rowContract_span row (hc row hrow) rs re hrs hre i s e hs he
    simp only [withinOrAbsent, within, Bool.or_eq_true, decide_eq_true_eq]
    omega

theorem containment_or_absent_witness :
    (∀ row ∈ [exAltRow], rowContract row = true)
      ∧ tree [exAltRow] ["", "outer", "inner1", "inner2"] [["123", "123", "123", ""]]
          = some [exAltTree]
      ∧ ∀ t ∈ [exAltTree], childrenAll withinOrAbsent t = true :=
  ⟨by decide, rfl,
    containment_or_absent [exAltRow] ["", "outer", "inner1", "inner2"]
      [["123", "123", "123", ""]] [exAltTree] (by decide) rfl⟩

/-! ## Claims on the builder, continued -/

/-- C11, as stated, fails: on the first record of `TestMultipleNestedGroups` the group
`inner2` has span `(-1, -1)`, yet the tree holds a node for it with start `-1`, and
`Get(0, 0, "inner2")` reports found. -/
theorem absent_group_node_counterexample :
    tree [exAltRow] exAltNames [["123", "123", "123", ""]] = some [exAltTree]
      ∧ (preorder exAltTree).map record
          = [("outer", "123", 0, 3), ("inner1", "123", 0, 3), ("inner2", "", -1, -1)]
      ∧ Get [exAltTree] 0 0 ["inner2"] = ("", true) :=
  ⟨rfl, by decide, by decide⟩

/-- C11, amended: groups that did not participate are not omitted. In every tree of a
forest the builder returns, the non-root nodes are, up to order, exactly the groups
`1..G` of the record with their name, captured substring and span, one node per
group whatever its span, so a group with span `(-1, -1)` yields a node with
start `-1`; and the name of every group ends the key-path of such a node, for
which `Get(i, 0, path)` reports found. -/
theorem every_group_yields_node (indexes : List (List Int)) (names : List String)
    (match_ : List (List String)) (forest : Matches)
    (h : tree indexes names match_ = some forest) (i : Nat) (t : MatchValue)
    (hi : forest[i]? = some t) :
    ∃ row vals, indexes[i]? = some row ∧ match_[i]? = some vals
      ∧ ((preorder t).map record).Perm (groupRecords row names vals)
      ∧ (preorder t).length = (row.length - 1) / 2
      ∧ ∀ r ∈ groupRecords row names vals, ∃ pn ∈ pathNodes t,
          record pn.2 = r ∧ pn.1.getLast? = some r.1 ∧ (Get forest (i : Int) 0 pn.1).2 = true := by
  obtain ⟨row, key, vals, value, rs, re, h1, _, h3, _, _, _, h7⟩ :=
    (tree_getElem indexes names match_ forest h).2 i t hi
  obtain ⟨hperm, hlen⟩ := groupLoop_records row names vals _ _ t h7
  have hp : ((preorder t).map record).Perm (groupRecords row names vals) := by
    simpa [groupRecords, preorder_leaf] using hperm
  refine ⟨row, vals, h1, h3, hp, ?_, ?_⟩
  · have := hp.length_eq
    rw [List.length_map] at this
    rw [this, groupRecords, hlen, List.length_range']
  · intro r hr
    have hmem : r ∈ (preorder t).map record := hp.symm.subset hr
    rw [preorder, List.map_map] at hmem
    obtain ⟨pn, hpn, hrec⟩ := List.mem_map.mp hmem
    have hroot : forest[((i : Int)).toNat]? = some t := by simpa using hi
    refine ⟨pn, hpn, hrec, ?_, (getAll_found_of_path forest i t (by omega) hroot pn hpn).2⟩
    rw [pathNodes_last t pn hpn, ← hrec]
    rfl

theorem every_group_yields_node_witness :
    tree [exAltRow] exAltNames [["123", "123", "123", ""]] = some [exAltTree]
      ∧ [exAltTree][0]? = some exAltTree
      ∧ ∃ row vals, [exAltRow][0]? = some row ∧ [["123", "123", "123", ""]][0]? = some vals
          ∧ ((preorder exAltTree).map record).Perm (groupRecords row exAltNames vals)
          ∧ (preorder exAltTree).length = (row.length - 1) / 2
          ∧ ∀ r ∈ groupRecords row exAltNames vals, ∃ pn ∈ pathNodes exAltTree,
              record pn.2 = r ∧ pn.1.getLast? = some r.1
                ∧ (Get [exAltTree] ((0 : Nat) : Int) 0 pn.1).2 = true :=
  ⟨rfl, rfl,
    every_group_yields_node [exAltRow] exAltNames [["123", "123", "123", ""]] [exAltTree]
      rfl 0 exAltTree rfl⟩

/-- C12, as stated, fails: in the record of the second `overlap` group of
`TestSubExpNamed`, `day` has the same span as the already inserted `overlap`, and
the builder makes it the child of `overlap`, not its sibling. -/
theorem identical_span_counterexample :
    tree [exOverlapRow] ["", "overlap", "day", "tens", "ones"] [["02", "02", "02", "0", "2"]]
        = some [exOverlapTree]
      ∧ exOverlapTree.Nested.map (fun c => c.Key) = ["overlap"]
      ∧ (nodeAt exOverlapTree [0]).map record = some ("overlap", "02", 0, 2)
      ∧ (nodeAt exOverlapTree [0, 0]).map record = some ("day", "02", 0, 2) :=
  ⟨rfl, by decide, by decide, by decide⟩

/-- C12, amended: when a later-processed group `n2` has a span identical to that of
a node `n1` the builder inserted earlier, whatever was inserted in between (`ms`),
the builder inserts `n2` inside the node of `n1`, as its child or as the child of
one of its descendants, never as its sibling: the path of the node of `n1` is a
proper initial segment of the path of the new node, and both paths point to
these nodes in the resulting tree. -/
theorem identical_span_nested_inside (bound n1 n2 : MatchValue) (ms : List MatchValue)
    (hs : n2.start = n1.start) (he : n2.end_ = n1.end_) :
    ∃ N, nodeAt (insertNode (build (insertNode bound n1) ms) n2) (insertPath bound n1) = some N
      ∧ record N = record n1
      ∧ nodeAt (insertNode (build (insertNode bound n1) ms) n2)
          (insertPath (build (insertNode bound n1) ms) n2) = some n2
      ∧ insertPath bound n1 <+: insertPath (build (insertNode bound n1) ms) n2
      ∧ (insertPath bound n1).length
          < (insertPath (build (insertNode bound n1) ms) n2).length := by
  obtain ⟨_, _, hA, hB⟩ := insertPath_spec bound n1
  have hB' := chainSteps_build n1.start n1.end_ _ ms _ hB
  obtain ⟨N0, hN0, hr0⟩ := nodeAt_build_persist (insertPath bound n1) ms _ n1 hA
  obtain ⟨hf2, ⟨x2, _, hp2⟩, hnew2, _⟩ := insertPath_spec (build (insertNode bound n1) ms) n2
  rw [hs, he] at hf2
  have hpre := chain_prefix n1.start n1.end_ _ _ _ hB' hf2
  rw [hs, he] at hp2
  obtain ⟨N, hN, hr⟩ := nodeAt_appendAt_persist n2 (insertPath bound n1) _ N0
    ((find (build (insertNode bound n1) ms) n2.start n2.end_).getD []) hN0
  rw [← insertNode_appendAt] at hN
  refine ⟨N, hN, hr.trans hr0, hnew2, ?_, ?_⟩
  · rw [hp2]
    exact hpre.trans (List.prefix_append _ _)
  · rw [hp2, List.length_append, List.length_singleton]
    exact Nat.lt_succ_of_le hpre.length_le

theorem identical_span_nested_inside_witness :
    (⟨"day", "02", [], 0, 2⟩ : MatchValue).start = (⟨"overlap", "02", [], 0, 2⟩ : MatchValue).start
      ∧ (⟨"day", "02", [], 0, 2⟩ : MatchValue).end_
          = (⟨"overlap", "02", [], 0, 2⟩ : MatchValue).end_
      ∧ ∃ N, nodeAt (insertNode (build (insertNode ⟨"", "02", [], 0, 2⟩
            ⟨"overlap", "02", [], 0, 2⟩) []) ⟨"day", "02", [], 0, 2⟩)
          (insertPath ⟨"", "02", [], 0, 2⟩ ⟨"overlap", "02", [], 0, 2⟩) = some N
        ∧ record N = record ⟨"overlap", "02", [], 0, 2⟩
        ∧ nodeAt (insertNode (build (insertNode ⟨"", "02", [], 0, 2⟩
            ⟨"overlap", "02", [], 0, 2⟩) []) ⟨"day", "02", [], 0, 2⟩)
          (insertPath (build (insertNode ⟨"", "02", [], 0, 2⟩
            ⟨"overlap", "02", [], 0, 2⟩) []) ⟨"day", "02", [], 0, 2⟩)
            = some ⟨"day", "02", [], 0, 2⟩
        ∧ insertPath ⟨"", "02", [], 0, 2⟩ ⟨"overlap", "02", [], 0, 2⟩
            <+: insertPath (build (insertNode ⟨"", "02", [], 0, 2⟩
              ⟨"overlap", "02", [], 0, 2⟩) []) ⟨"day", "02", [], 0, 2⟩
        ∧ (insertPath ⟨"", "02", [], 0, 2⟩ ⟨"overlap", "02", [], 0, 2⟩).length
            < (insertPath (build (insertNode ⟨"", "02", [], 0, 2⟩
              ⟨"overlap", "02", [], 0, 2⟩) []) ⟨"day", "02", [], 0, 2⟩).length :=
  ⟨rfl, rfl,
    identical_span_nested_inside ⟨"", "02", [], 0, 2⟩ ⟨"overlap", "02", [], 0, 2⟩
      ⟨"day", "02", [], 0, 2⟩ [] rfl rfl⟩

/-- C13, as stated, fails: on the record of `(a)(((x*)b))` on `ab`, when group 4 with
span `(1, 1)` is processed the bound holds group 3 with span `(1, 2)` at depth 2
(path `[1, 0]`), which contains `(1, 1)`, yet `find` returns group 1 with span
`(0, 1)` at depth 1 (path `[0]`), the first child of the root containing the span,
and group 4 becomes the child of group 1. -/
theorem deepest_container_counterexample :
    tree [exChainRow] exChainNames [exChainVals] = some [exChainTree]
      ∧ (List.range' 2 3 2).foldlM (groupStep exChainRow exChainNames exChainVals)
          ⟨"", "ab", [], 0, 2⟩ = some exChainBound
      ∧ groupStep exChainRow exChainNames exChainVals exChainBound 8 = some exChainTree
      ∧ find exChainBound 1 1 = some [0]
      ∧ (nodeAt exChainBound [0]).map record = some ("", "a", 0, 1)
      ∧ (nodeAt exChainBound [1, 0]).map (fun x => (record x, contains x 1 1))
          = some (("", "b", 1, 2), true)
      ∧ ([0] : List Nat).length < ([1, 0] : List Nat).length :=
  ⟨rfl, rfl, rfl, rfl, by decide, by decide, by decide⟩

/-- C13, amended: for every group the inner loop inserts, the node chosen as its
parent is the end of the chain of first containing children: starting at the root,
the path enters at each step the first child, in stored order, whose span contains
the group's span, and ends at a node none of whose children contains it. This
path is the only one with that property, and the new node is appended to the node
it points to; a container of greater depth below a later sibling is not considered. -/
theorem parent_is_first_chain_end (row : List Int) (names vals : List String)
    (bound b' : MatchValue) (j : Nat) (h : groupStep row names vals bound j = some b') :
    ∃ k v s e, groupRecord row names vals j = some (k, v, s, e)
      ∧ b' = appendAt bound ((find bound s e).getD []) ⟨k, v, [], s, e⟩
      ∧ firstChain bound ((find bound s e).getD []) s e = true
      ∧ (∀ q, firstChain bound q s e = true → q = (find bound s e).getD [])
      ∧ ∃ x, nodeAt bound ((find bound s e).getD []) = some x := by
  obtain ⟨k, v, s, e, hr, hb⟩ := groupStep_record row names vals bound b' j h
  have hf := find_firstChain s e bound
  obtain ⟨x, hx, _⟩ := chainSteps_nodeAt s e _ bound (chainSteps_of_firstChain _ _ _ bound hf)
  refine ⟨k, v, s, e, hr, ?_, hf, ?_, x, hx⟩
  · rw [hb, insertNode_appendAt]
  · intro q hq
    exact firstChain_unique s e bound q _ hq hf

theorem parent_is_first_chain_end_witness :
    groupStep exChainRow exChainNames exChainVals exChainBound 8 = some exChainTree
      ∧ ∃ k v s e, groupRecord exChainRow exChainNames exChainVals 8 = some (k, v, s, e)
        ∧ exChainTree
            = appendAt exChainBound ((find exChainBound s e).getD []) ⟨k, v, [], s, e⟩
        ∧ firstChain exChainBound ((find exChainBound s e).getD []) s e = true
        ∧ (∀ q, firstChain exChainBound q s e = true → q = (find exChainBound s e).getD [])
        ∧ ∃ x, nodeAt exChainBound ((find exChainBound s e).getD []) = some x :=
  ⟨rfl,
    parent_is_first_chain_end exChainRow exChainNames exChainVals exChainBound exChainTree 8
      rfl⟩

/-- C14: order preservation. In every tree of a forest the builder returns, the tree
is the result of inserting the groups `1..G` of the record in ascending group
number; each group's node stays at the path where it was inserted (the path
points, in the final tree, to a node with that group's name, substring and
span), and whenever the nodes of two groups `g₁ < g₂` have the same parent `p`,
the node of `g₁` has the smaller index among the children of `p`, whatever the
start offsets are. -/
theorem children_in_group_order (indexes : List (List Int)) (names : List String)
    (match_ : List (List String)) (forest : Matches)
    (h : tree indexes names match_ = some forest) (i : Nat) (t : MatchValue)
    (hi : forest[i]? = some t) :
    ∃ row vals root, indexes[i]? = some row ∧ match_[i]? = some vals ∧ root.Nested = []
      ∧ t = build root ((groupRecords row names vals).map leafOfRecord)
      ∧ (insertPaths root ((groupRecords row names vals).map leafOfRecord)).length
          = (groupRecords row names vals).length
      ∧ (∀ (g : Nat) (pth : List Nat),
          (insertPaths root ((groupRecords row names vals).map leafOfRecord))[g]? = some pth →
          ∃ y r, (groupRecords row names vals)[g]? = some r ∧ nodeAt t pth = some y
            ∧ record y = r)
      ∧ (∀ (g₁ g₂ : Nat) (p : List Nat) (a b : Nat), g₁ < g₂ →
          (insertPaths root ((groupRecords row names vals).map leafOfRecord))[g₁]?
            = some (p ++ [a]) →
          (insertPaths root ((groupRecords row names vals).map leafOfRecord))[g₂]?
            = some (p ++ [b]) → a < b) := by
  obtain ⟨row, key, vals, value, rs, re, h1, _, h3, _, _, _, h7⟩ :=
    (tree_getElem indexes names match_ forest h).2 i t hi
  have hb := groupLoop_build row names vals _ _ t h7
  refine ⟨row, vals, ⟨key, value, [], rs, re⟩, h1, h3, rfl, hb, ?_, ?_, ?_⟩
  · rw [length_insertPaths, List.length_map]
  · intro g pth hg
    obtain ⟨y, n, hn, hy, hr⟩ := insertPaths_valid _ _ g pth hg
    rw [List.getElem?_map] at hn
    cases hrec : (groupRecords row names vals)[g]? with
    | none => simp [hrec] at hn
    | some r =>
      simp only [hrec, Option.map_some', Option.some.injEq] at hn
      refine ⟨y, r, rfl, ?_, ?_⟩
      · rw [hb]; exact hy
      · rw [hr, ← hn]; rfl
  · intro g₁ g₂ p a b hlt hg1 hg2
    exact insertPaths_ascending _ _ g₁ g₂ p a b hlt hg1 hg2

theorem children_in_group_order_witness :
    tree [exDeepRow] exDeepNames [exDeepVals] = some [exDeepTree]
      ∧ [exDeepTree][0]? = some exDeepTree
      ∧ ∃ row vals root, [exDeepRow][0]? = some row ∧ [exDeepVals][0]? = some vals
        ∧ root.Nested = []
        ∧ exDeepTree = build root ((groupRecords row exDeepNames vals).map leafOfRecord)
        ∧ (insertPaths root ((groupRecords row exDeepNames vals).map leafOfRecord)).length
            = (groupRecords row exDeepNames vals).length
        ∧ (∀ (g : Nat) (pth : List Nat),
            (insertPaths root ((groupRecords row exDeepNames vals).map leafOfRecord))[g]?
              = some pth →
            ∃ y r, (groupRecords row exDeepNames vals)[g]? = some r
              ∧ nodeAt exDeepTree pth = some y ∧ record y = r)
        ∧ (∀ (g₁ g₂ : Nat) (p : List Nat) (a b : Nat), g₁ < g₂ →
            (insertPaths root ((groupRecords row exDeepNames vals).map leafOfRecord))[g₁]?
              = some (p ++ [a]) →
            (insertPaths root ((groupRecords row exDeepNames vals).map leafOfRecord))[g₂]?
              = some (p ++ [b]) → a < b) :=
  ⟨rfl, rfl,
    children_in_group_order [exDeepRow] exDeepNames [exDeepVals] [exDeepTree] rfl 0
      exDeepTree rfl⟩

/-- C15, evaluated at the failing input: on the two records of
`TestMultipleNestedGroups` the root of the second tree, the node created for group
0, has the value and the span of group 0 but the key `outer`, the name of group 1,
whereas the name of group 0 is the empty string; the non-root nodes of that tree
carry the name, substring and span of their groups. -/
theorem node_key_root_divergence :
    tree exAltIndexes exAltNames exAltMatch = some [exAltTree, exAltTree2]
      ∧ record exAltTree2 = ("outer", "abc", 3, 6)
      ∧ exAltNames[0]? = some ""
      ∧ (exAltMatch[1]?.bind (fun vals => vals[0]?)) = some "abc"
      ∧ (preorder exAltTree2).map record
          = [("outer", "abc", 3, 6), ("inner2", "abc", 3, 6), ("inner1", "", -1, -1)] :=
  ⟨rfl, rfl, rfl, rfl, by decide⟩

/-- C16, evaluated at the failing input: on the two records of
`TestMultipleNestedGroups` the root of the first tree has the empty key and the
root of the second tree has the key `outer`, the entry of the name table at the
occurrence number 1. -/
theorem root_key_second_occurrence :
    tree exAltIndexes exAltNames exAltMatch = some [exAltTree, exAltTree2]
      ∧ exAltTree.Key = ""
      ∧ exAltTree2.Key = "outer"
      ∧ exAltNames[1]? = some "outer" :=
  ⟨rfl, rfl, rfl, rfl⟩

/-- C17, evaluated at the failing input: for a pattern without capture groups that
matches twice (name table of length 1, two records of one span and one substring
each) the builder indexes the name table out of range at the second occurrence
and returns no forest. -/
theorem builder_fails_more_matches_than_names :
    tree [[0, 1], [1, 2]] [""] [["1"], ["2"]] = none
      ∧ matchStep [[0, 1], [1, 2]] [""] [["1"], ["2"]] [] 0 = some [⟨"", "1", [], 0, 1⟩]
      ∧ matchStep [[0, 1], [1, 2]] [""] [["1"], ["2"]] [⟨"", "1", [], 0, 1⟩] 1 = none
      ∧ ([""] : List String)[1]? = none :=
  ⟨rfl, rfl, rfl, rfl⟩

/-- C18: one tree per match occurrence, in order. Whenever the builder returns a
forest for `M` records, `Len()` is `M`, and for every `i < M` the root of tree `i`
has the value of the group 0 substring of occurrence `i` and the span of group 0
of occurrence `i`. -/
theorem one_tree_per_occurrence (indexes : List (List Int)) (names : List String)
    (match_ : List (List String)) (forest : Matches)
    (h : tree indexes names match_ = some forest) :
    Len forest = indexes.length
      ∧ ∀ i : Nat, i < indexes.length →
          ∃ t row vals, forest[i]? = some t ∧ indexes[i]? = some row ∧ match_[i]? = some vals
            ∧ vals[0]? = some t.Value ∧ row[0]? = some t.start ∧ row[1]? = some t.end_ := by
  obtain ⟨hlen, hall⟩ := tree_getElem indexes names match_ forest h
  refine ⟨by simp [Len, hlen], ?_⟩
  intro i hi
  have hlt : i < forest.length := by omega
  obtain ⟨row, key, vals, value, rs, re, h1, _, h3, h4, h5, h6, h7⟩ :=
    hall i forest[i] (List.getElem?_eq_getElem hlt)
  have hb := groupLoop_build row names vals _ _ _ h7
  have hr : record forest[i] = (key, value, rs, re) := by
    rw [hb, record_build]
    rfl
  simp only [record, Prod.mk.injEq] at hr
  refine ⟨forest[i], row, vals, List.getElem?_eq_getElem hlt, h1, h3, ?_, ?_, ?_⟩
  · rw [hr.2.1]; exact h4
  · rw [hr.2.2.1]; exact h5
  · rw [hr.2.2.2]; exact h6

theorem one_tree_per_occurrence_witness :
    tree exAltIndexes exAltNames exAltMatch = some [exAltTree, exAltTree2]
      ∧ Len [exAltTree, exAltTree2] = exAltIndexes.length
      ∧ ∀ i : Nat, i < exAltIndexes.length →
          ∃ t row vals, [exAltTree, exAltTree2][i]? = some t ∧ exAltIndexes[i]? = some row
            ∧ exAltMatch[i]? = some vals
            ∧ vals[0]? = some t.Value ∧ row[0]? = some t.start ∧ row[1]? = some t.end_ :=
  ⟨rfl, one_tree_per_occurrence exAltIndexes exAltNames exAltMatch [exAltTree, exAltTree2] rfl⟩

/-- C19, as stated, fails: in `exNested` the only node with key-path `a` has two
children, so the key sequence is exhausted above a leaf, yet `GetAll(0, a)` and
`Get(0, 0, a)` report found with the value of that node. -/
theorem path_above_leaf_counterexample :
    (∀ pn ∈ pathNodes exNested, pn.1 = ["a"] → 0 < pn.2.Nested.length)
      ∧ GetAll [exNested] 0 ["a"] = (["16"], true)
      ∧ Get [exNested] 0 0 ["a"] = ("16", true) :=
  ⟨by decide, by decide, by decide⟩

/-- C19, amended: a path ending above a leaf is found. For an in-range index `i`
with root `root` and a non-empty key list `keys`, `GetAll(i, keys)` and
`Get(i, 0, keys)` report found exactly when some node of the tree has key-path
`keys`, whether or not such a node has children; whenever every node with that
key-path has at least one child and there is such a node, both report found. -/
theorem path_above_leaf_found (rm : Matches) (i : Int) (root : MatchValue)
    (keys : List String) (h0 : 0 ≤ i) (hroot : rm[i.toNat]? = some root) (hk : keys ≠ []) :
    ((GetAll rm i keys).2 = true ↔ ∃ pn ∈ pathNodes root, pn.1 = keys)
      ∧ ((Get rm i 0 keys).2 = true ↔ ∃ pn ∈ pathNodes root, pn.1 = keys)
      ∧ ((∃ pn ∈ pathNodes root, pn.1 = keys) →
          (∀ pn ∈ pathNodes root, pn.1 = keys → 0 < pn.2.Nested.length) →
          (GetAll rm i keys).2 = true ∧ (Get rm i 0 keys).2 = true) := by
  have hfound : (∃ pn ∈ pathNodes root, pn.1 = keys) →
      (GetAll rm i keys).2 = true ∧ (Get rm i 0 keys).2 = true := by
    rintro ⟨pn, hpn, rfl⟩
    exact getAll_found_of_path rm i root h0 hroot pn hpn
  have hnot : ¬ (∃ pn ∈ pathNodes root, pn.1 = keys) →
      (GetAll rm i keys).2 = false ∧ (Get rm i 0 keys).2 = false := by
    intro hno
    have hv : descend root keys = [] := by
      rw [descend_eq_valuesAt keys hk root, valuesAt, List.map_eq_nil_iff,
        List.filter_eq_nil_iff]
      intro pn hpn
      simp only [decide_eq_true_eq]
      exact fun heq => hno ⟨pn, hpn, heq⟩
    have hg : GetAll rm i keys = ([], false) := by
      rw [GetAll_inrange rm i root keys h0 hroot, hv]
      rfl
    exact ⟨by rw [hg], by simp [Get, hg]⟩
  refine ⟨⟨?_, fun h => (hfound h).1⟩, ⟨?_, fun h => (hfound h).2⟩, fun h _ => hfound h⟩
  · intro hg
    by_contra hno
    rw [(hnot hno).1] at hg
    cases hg
  · intro hg
    by_contra hno
    rw [(hnot hno).2] at hg
    cases hg

theorem path_above_leaf_found_witness :
    (0 : Int) ≤ 0 ∧ [exNested][(0 : Int).toNat]? = some exNested ∧ ["a"] ≠ []
      ∧ ((GetAll [exNested] 0 ["a"]).2 = true ↔ ∃ pn ∈ pathNodes exNested, pn.1 = ["a"])
      ∧ ((Get [exNested] 0 0 ["a"]).2 = true ↔ ∃ pn ∈ pathNodes exNested, pn.1 = ["a"])
      ∧ ((∃ pn ∈ pathNodes exNested, pn.1 = ["a"]) →
          (∀ pn ∈ pathNodes exNested, pn.1 = ["a"] → 0 < pn.2.Nested.length) →
          (GetAll [exNested] 0 ["a"]).2 = true ∧ (Get [exNested] 0 0 ["a"]).2 = true) :=
  ⟨by decide, rfl, by decide,
    path_above_leaf_found [exNested] 0 exNested ["a"] (by decide) rfl (by decide)⟩

/-- C20: containment when every group participates. For every forest the builder
returns on records in which every group span lies within the span of group 0, every
non-root node of every tree is contained in its parent's span; the same holds of
the bound after each iteration of the inner loop on such a record; and whenever
`find` reports contained, the node it returns contains the searched span. -/
theorem containment_all_participate (indexes : List (List Int)) (names : List String)
    (match_ : List (List String)) (forest : Matches)
    (hc : ∀ row ∈ indexes, rowParticipates row = true)
    (h : tree indexes names match_ = some forest) :
    (∀ t ∈ forest, containedInParent t = true)
      ∧ (∀ row ∈ indexes, ∀ (vals : List String) (key value : String) (rs re : Int)
          (cnt : Nat) (b : MatchValue), row[0]? = some rs → row[1]? = some re →
          (List.range' 2 cnt 2).foldlM (groupStep row names vals) ⟨key, value, [], rs, re⟩
            = some b → containedInParent b = true)
      ∧ (∀ (bound : MatchValue) (s e : Int) (q : List Nat), find bound s e = some q →
          ∃ x, nodeAt bound q = some x ∧ x.start ≤ s ∧ e ≤ x.end_) := by
  have hR : ∀ row ∈ indexes, ∀ rs re, row[0]? = some rs → row[1]? = some re →
      ∀ i s e, row[2 + 2 * i]? = some s → row[2 + 2 * i + 1]? = some e →
        ∀ k v, within rs re ⟨k, v, [], s, e⟩ = true := by
    intro row hrow rs re hrs hre i s e hs he k v
    have := rowParticipates_span row (hc row hrow) rs re hrs hre i s e hs he
    simp only [within, decide_eq_true_eq]
    exact ⟨this.1, this.2.2⟩
  refine ⟨?_, ?_, find_nodeAt_contains⟩
  · exact tree_invariant within within_span_eq within_of_contains indexes names match_ hR
      forest h
  · intro row hrow vals key value rs re cnt b hrs hre hb
    exact (groupLoop_invariant within within_span_eq within_of_contains row names vals rs re
      cnt (hR row hrow rs re hrs hre) ⟨key, value, [], rs, re⟩ b ⟨rfl, rfl, rfl⟩ hb).1

theorem containment_all_participate_witness :
    (∀ row ∈ [exDeepRow], rowParticipates row = true)
      ∧ tree [exDeepRow] exDeepNames [exDeepVals] = some [exDeepTree]
      ∧ (∀ t ∈ [exDeepTree], containedInParent t = true)
      ∧ (∀ row ∈ [exDeepRow], ∀ (vals : List String) (key value : String) (rs re : Int)
          (cnt : Nat) (b : MatchValue), row[0]? = some rs → row[1]? = some re →
          (List.range' 2 cnt 2).foldlM (groupStep row exDeepNames vals)
            ⟨key, value, [], rs, re⟩ = some b → containedInParent b = true)
      ∧ (∀ (bound : MatchValue) (s e : Int) (q : List Nat), find bound s e = some q →
          ∃ x, nodeAt bound q = some x ∧ x.start ≤ s ∧ e ≤ x.end_) :=
  ⟨by decide, rfl,
    containment_all_participate [exDeepRow] exDeepNames [exDeepVals] [exDeepTree]
      (by decide) rfl⟩

/-- C21: local maximality of the insertion point. For every bound and every new span
`s, e`, the node under which the builder appends the new node (the node `find`
returns, or the bound itself when `find` reports not contained) has no child whose
span contains `s, e`; `find` reports not contained exactly when no direct child
of the bound contains `s, e`; and an iteration of the inner loop for a group with
that span appends the new node to that very node. -/
theorem insertion_point_locally_maximal (bound : MatchValue) (s e : Int) :
    (∃ x, nodeAt bound ((find bound s e).getD []) = some x
        ∧ ∀ c ∈ x.Nested, ¬ (s ≥ c.start ∧ e ≤ c.end_))
      ∧ (find bound s e = none ↔ ∀ c ∈ bound.Nested, ¬ (s ≥ c.start ∧ e ≤ c.end_))
      ∧ (∀ (row : List Int) (names vals : List String) (j : Nat) (b' : MatchValue),
          row[j]? = some s → row[j + 1]? = some e →
          groupStep row names vals bound j = some b' →
          ∃ k v, b' = appendAt bound ((find bound s e).getD []) ⟨k, v, [], s, e⟩) := by
  have hf := find_firstChain s e bound
  refine ⟨?_, ?_, ?_⟩
  · obtain ⟨x, hx, _⟩ := chainSteps_nodeAt s e _ bound
      (chainSteps_of_firstChain s e _ bound hf)
    refine ⟨x, hx, ?_⟩
    have hall := firstChain_end_no_child s e _ bound x hf hx
    rw [List.all_eq_true] at hall
    exact fun c hc => (not_contains_iff c s e).mp (hall c hc)
  · rw [(find_iff_firstChain bound s e).2]
    simp only [firstChain, List.all_eq_true]
    constructor
    · exact fun h c hc => (not_contains_iff c s e).mp (h c hc)
    · exact fun h c hc => (not_contains_iff c s e).mpr (h c hc)
  · intro row names vals j b' hs he hstep
    obtain ⟨s', e', key, value, hs', he', hb⟩ := groupStep_some row names vals bound b' j hstep
    rw [hs] at hs'
    rw [he] at he'
    injection hs' with hs'
    injection he' with he'
    subst hs' he'
    exact ⟨key, value, by rw [hb, insertNode_appendAt]⟩

theorem insertion_point_locally_maximal_witness :
    find exDeepBound 1 3 = some [0]
      ∧ find exDeepBound 7 8 = none
      ∧ (∃ x, nodeAt exDeepBound ((find exDeepBound 1 3).getD []) = some x
          ∧ ∀ c ∈ x.Nested, ¬ ((1 : Int) ≥ c.start ∧ (3 : Int) ≤ c.end_))
      ∧ (find exDeepBound 1 3 = none
          ↔ ∀ c ∈ exDeepBound.Nested, ¬ ((1 : Int) ≥ c.start ∧ (3 : Int) ≤ c.end_))
      ∧ (∀ (row : List Int) (names vals : List String) (j : Nat) (b' : MatchValue),
          row[j]? = some 1 → row[j + 1]? = some 3 →
          groupStep row names vals exDeepBound j = some b' →
          ∃ k v, b' = appendAt exDeepBound ((find exDeepBound 1 3).getD []) ⟨k, v, [], 1, 3⟩) :=
  ⟨rfl, rfl, insertion_point_locally_maximal exDeepBound 1 3⟩

/-! ## Claims on the query engine, continued -/

/-- C22: `Keys` and `GetAll` agree. For an in-range index `i` with root `root` and a
non-empty key list `keys`, `GetAll(i, keys)` reports found exactly when `keys` is
an element of `Keys(i)`; every path listed by `Keys(i)` is retrieved by
`Get(i, 0, path)`, and for a non-empty path absent from `Keys(i)`,
`Get(i, 0, path)` returns the empty string and false. -/
theorem keys_getAll_agree (rm : Matches) (i : Int) (root : MatchValue)
    (keys : List String) (h0 : 0 ≤ i) (hroot : rm[i.toNat]? = some root) (hk : keys ≠ []) :
    ((GetAll rm i keys).2 = true ↔ keys ∈ Keys rm i)
      ∧ (∀ q ∈ Keys rm i, (Get rm i 0 q).2 = true)
      ∧ (∀ q : List String, q ≠ [] → q ∉ Keys rm i → Get rm i 0 q = ("", false)) := by
  have hfound : ∀ q ∈ Keys rm i, (GetAll rm i q).2 = true ∧ (Get rm i 0 q).2 = true := by
    intro q hq
    obtain ⟨pn, hpn, rfl⟩ := (mem_Keys_iff rm i root q h0 hroot).mp hq
    exact getAll_found_of_path rm i root h0 hroot pn hpn
  have habsent : ∀ q : List String, q ≠ [] → q ∉ Keys rm i →
      GetAll rm i q = ([], false) ∧ Get rm i 0 q = ("", false) := by
    intro q hq hno
    apply getAll_none_of_no_path rm i root q h0 hroot hq
    intro pn hpn heq
    exact hno ((mem_Keys_iff rm i root q h0 hroot).mpr ⟨pn, hpn, heq⟩)
  refine ⟨⟨?_, fun h => (hfound keys h).1⟩, fun q hq => (hfound q hq).2,
    fun q hq hno => (habsent q hq hno).2⟩
  intro hg
  by_contra hno
  rw [(habsent keys hk hno).1] at hg
  cases hg

theorem keys_getAll_agree_witness :
    (0 : Int) ≤ 0 ∧ [exTree][(0 : Int).toNat]? = some exTree ∧ ["b", "d"] ≠ []
      ∧ ((GetAll [exTree] 0 ["b", "d"]).2 = true ↔ ["b", "d"] ∈ Keys [exTree] 0)
      ∧ (∀ q ∈ Keys [exTree] 0, (Get [exTree] 0 0 q).2 = true)
      ∧ (∀ q : List String, q ≠ [] → q ∉ Keys [exTree] 0 → Get [exTree] 0 0 q = ("", false)) :=
  ⟨by decide, rfl, by decide,
    keys_getAll_agree [exTree] 0 exTree ["b", "d"] (by decide) rfl (by decide)⟩

end Subexpnames
